import Mathlib

/-!
# Postfix expression interpreter: tokenizer, parser and evaluator

A shallow embedding of `parser.c`, `stack.c`, `symtab.c` and `tree_node.c`.

Conventions of the embedding

* A C string is the list of its characters before the terminating NUL (`CStr`).
* `isdigit`, `isalpha`, `isalnum`, `isspace` are those of the "C" locale.
* `long` is the 64-bit two's complement integer of LP64 targets and `int` the 32-bit one.
  The results of `+`, `-` and `*` on `long` are reduced into range with `wrap_long`; the
  conversion `(int)` of a `long` is reduction modulo `2 ^ 32` (`to_int`).
* The quotient of `LONG_MIN` by `-1` is not a `long`: the divide instruction behind `/` and `%`
  raises a divide error there and the process is killed by SIGFPE. The evaluator guards only
  against a zero divisor, so this stop is part of its behaviour; it is recorded as the failure
  `SIGFPE_TRAP`, distinct from every value and from every message the code stores.
* The token stack of `stack.c` is a list whose head is the top of the stack.
* The global list `sym_head` of `symtab.c` is passed explicitly: the evaluator takes the table
  and returns the table it leaves behind together with its result.
* Memory allocation is assumed to succeed, so the out-of-memory exits are not modelled.
* Error messages are the very strings the C code stores in `*err`.
-/

namespace Interp

/-- C string: the characters that precede the terminating NUL. -/
abbrev CStr := List Char

/-! ## Types of `tree_node.h` -/

/-- Modelled from the spec: `tree_node.h` is missing; the leaf kinds are the two tags the
sources use (`INTEGER`, `SYMBOL`), the spec's "leaf-kind tag (Integer or SymbolRef)". -/
inductive exp_type_t where
  | INTEGER
  | SYMBOL
  deriving DecidableEq

/-- Modelled from the spec: `tree_node.h` is missing; the operator tags are the ones the sources
use (`NO_OP` and the eight tags the spec lists: Add, Sub, Mul, Div, Mod, Assign, Ternary, Alt). -/
inductive op_type_t where
  | NO_OP
  | ADD_OP
  | SUB_OP
  | MUL_OP
  | DIV_OP
  | MOD_OP
  | ASSIGN_OP
  | Q_OP
  | ALT_OP
  deriving DecidableEq

/-- A `tree_node_t *`: the null pointer, a `LEAF` node (token and leaf kind) or an `INTERIOR`
node (token, operator tag and the two child pointers). -/
inductive tree_node_t where
  | null
  | leaf (exp_type : exp_type_t) (token : CStr)
  | interior (op : op_type_t) (token : CStr) (left right : tree_node_t)
  deriving DecidableEq

open exp_type_t op_type_t

/-- Function `make_leaf` of `tree_node.c` (allocation succeeds, the token is not NULL). -/
def make_leaf (exp_type : exp_type_t) (token : CStr) : tree_node_t :=
  tree_node_t.leaf exp_type token

/-- Function `make_interior` of `tree_node.c` (allocation succeeds, the token is not NULL). -/
def make_interior (op : op_type_t) (token : CStr) (left right : tree_node_t) : tree_node_t :=
  tree_node_t.interior op token left right

/-! ## `stack.c` -/

/-- The token stack: the head of the list is the top. -/
abbrev stack_t := List CStr

/-- Function `make_stack`: the empty stack. -/
def make_stack : stack_t := []

/-- Function `push`: the new node becomes the top. -/
def push (stack : stack_t) (data : CStr) : stack_t := data :: stack

/-- Function `empty_stack`: whether the stack has no node. -/
def empty_stack (stack : stack_t) : Bool := stack.isEmpty

/-! ## Character classes of `<ctype.h>` in the "C" locale -/

/-- Function `isdigit`: the characters `0` to `9`. -/
def isdigit (c : Char) : Bool := decide (48 ≤ c.toNat) && decide (c.toNat ≤ 57)

/-- Function `isalpha`: the letters `A` to `Z` and `a` to `z`. -/
def isalpha (c : Char) : Bool :=
  (decide (65 ≤ c.toNat) && decide (c.toNat ≤ 90)) ||
  (decide (97 ≤ c.toNat) && decide (c.toNat ≤ 122))

/-- Function `isalnum`: letters and digits. -/
def isalnum (c : Char) : Bool := isalpha c || isdigit c

/-- Function `isspace`: space, `\t`, `\n`, `\v`, `\f`, `\r`. -/
def isspace (c : Char) : Bool := c.toNat == 32 || (decide (9 ≤ c.toNat) && decide (c.toNat ≤ 13))

/-! ## Tokenizer and token classes (`parser.c`) -/

/-- Membership in the delimiter set `" \t\r\n"` given to `strtok_r`. -/
def is_delim (c : Char) : Bool :=
  c.toNat == 32 || c.toNat == 9 || c.toNat == 13 || c.toNat == 10

/-- The successive results of `strtok_r` over the rest of the line, left to right; `cur` is the
token being scanned. Delimiters are skipped, so no token is empty. -/
def strtok_all (cur : CStr) : List Char → List CStr
  | [] => if cur.isEmpty then [] else [cur]
  | c :: cs =>
    if is_delim c then
      if cur.isEmpty then strtok_all [] cs else cur :: strtok_all [] cs
    else strtok_all (cur ++ [c]) cs

/-- Function `tokenize_line`: every token of the line is pushed, left to right, so the rightmost token
ends on top. -/
def tokenize_line (line : CStr) (tokstack : stack_t) : stack_t :=
  (strtok_all [] line).foldl push tokstack

/-- Function `is_op`: a one-character string among `+ - * / % = ?`. -/
def is_op (t : CStr) : Bool :=
  match t with
  | [c] => c == '+' || c == '-' || c == '*' || c == '/' || c == '%' || c == '=' || c == '?'
  | _ => false

/-- Function `is_integer_token`: the first character is a digit and so is every later one. -/
def is_integer_token (t : CStr) : Bool :=
  match t with
  | [] => false
  | c :: cs => isdigit c && cs.all isdigit

/-- Function `is_symbol_token`: the first character is a letter and every later one is alphanumeric. -/
def is_symbol_token (t : CStr) : Bool :=
  match t with
  | [] => false
  | c :: cs => isalpha c && cs.all isalnum

/-- The `switch (opch)` of `parse_from_stack`. -/
def op_of_char (opch : Char) : op_type_t :=
  if opch = '+' then ADD_OP
  else if opch = '-' then SUB_OP
  else if opch = '*' then MUL_OP
  else if opch = '/' then DIV_OP
  else if opch = '%' then MOD_OP
  else if opch = '=' then ASSIGN_OP
  else NO_OP

/-- Function `parse_from_stack`, by recursion on a bound of the recursion depth. Every call pops a token
before it recurses, so the bound `length + 1` that `parse_from_stack` supplies is never used up.
The result is the tree or the error message, and the stack as the call leaves it. -/
def parse_from_stack_fuel : Nat → stack_t → Except String tree_node_t × stack_t
  | 0, tokstack => (.error "recursion bound exceeded", tokstack)
  | _ + 1, [] => (.error "Invalid expression, not enough tokens", [])
  | fuel + 1, token :: tokstack =>
    if is_op token then
      let opch := token.headD (Char.ofNat 0)
      if opch = '?' then
        match parse_from_stack_fuel fuel tokstack with
        | (.error e, s1) => (.error e, s1)
        | (.ok c, s1) =>
          match parse_from_stack_fuel fuel s1 with
          | (.error e, s2) => (.error e, s2)
          | (.ok b, s2) =>
            match parse_from_stack_fuel fuel s2 with
            | (.error e, s3) => (.error e, s3)
            | (.ok a, s3) =>
              let alt := make_interior ALT_OP [':'] b c
              (.ok (make_interior Q_OP ['?'] a alt), s3)
      else
        match parse_from_stack_fuel fuel tokstack with
        | (.error e, s1) => (.error e, s1)
        | (.ok right, s1) =>
          match parse_from_stack_fuel fuel s1 with
          | (.error e, s2) => (.error e, s2)
          | (.ok left, s2) => (.ok (make_interior (op_of_char opch) token left right), s2)
    else if is_integer_token token then (.ok (make_leaf INTEGER token), tokstack)
    else if is_symbol_token token then (.ok (make_leaf SYMBOL token), tokstack)
    else (.error "Illegal token", tokstack)

/-- Function `parse_from_stack`: the recursive parser on a token stack. -/
def parse_from_stack (tokstack : stack_t) : Except String tree_node_t × stack_t :=
  parse_from_stack_fuel (tokstack.length + 1) tokstack

/-- Function `parse_line`: tokenize, parse, and require the stack to be empty afterwards. -/
def parse_line (line : CStr) : Except String tree_node_t :=
  let tokstack := tokenize_line line make_stack
  if empty_stack tokstack then .error "Invalid expression, not enough tokens"
  else
    match parse_from_stack tokstack with
    | (.error e, _) => .error e
    | (.ok root, rest) =>
      if !empty_stack rest then .error "Invalid expression, too many tokens"
      else .ok root

/-! ## Machine integers -/

/-- Constant `LONG_MAX` on LP64. -/
def LONG_MAX : Int := 2 ^ 63 - 1

/-- Constant `LONG_MIN` on LP64. -/
def LONG_MIN : Int := -(2 ^ 63)

/-- Constant `INT_MAX` of a 32-bit `int`. -/
def INT_MAX : Int := 2 ^ 31 - 1

/-- Constant `INT_MIN` of a 32-bit `int`. -/
def INT_MIN : Int := -(2 ^ 31)

/-- Reduction of an integer into the range of `long` (two's complement, 64 bits). -/
def wrap_long (x : Int) : Int := (x + 2 ^ 63) % 2 ^ 64 - 2 ^ 63

/-- The conversion `(int)rval` of a `long`: reduction modulo `2 ^ 32` into the range of `int`. -/
def to_int (x : Int) : Int := (x + 2 ^ 31) % 2 ^ 32 - 2 ^ 31

/-- The digit loop of `strtol` in base 10: the value of the longest run of leading digits. -/
def strtol_digits (acc : Nat) : List Char → Nat
  | [] => acc
  | c :: cs => if isdigit c then strtol_digits (acc * 10 + (c.toNat - 48)) cs else acc

/-- Function `strtol(s, NULL, 10)`: leading white space is skipped, an optional sign is read, then the
digits; a value out of range is clamped to `LONG_MAX` or `LONG_MIN`. -/
def strtol (s : CStr) : Int :=
  match s.dropWhile isspace with
  | [] => 0
  | c :: cs =>
    if c = '-' then max LONG_MIN (-(strtol_digits 0 cs : Int))
    else if c = '+' then min LONG_MAX (strtol_digits 0 cs : Int)
    else min LONG_MAX (strtol_digits 0 (c :: cs) : Int)

/-! ## `symtab.c` -/

/-- A `symbol_t` node of the list: name and `int` value (the `next` link is the list itself). -/
structure symbol_t where
  var_name : CStr
  val : Int
  deriving DecidableEq

/-- The list headed by `sym_head`, first node first. -/
abbrev symtab_t := List symbol_t

/-- Function `create_symbol`: the new node is linked in at the head. -/
def create_symbol (sym_head : symtab_t) (name : CStr) (val : Int) : symtab_t :=
  { var_name := name, val := val } :: sym_head

/-- Function `lookup_table`: the first node of that name, if any. -/
def lookup_table (sym_head : symtab_t) (name : CStr) : Option symbol_t :=
  match sym_head with
  | [] => none
  | cur :: next => if cur.var_name = name then some cur else lookup_table next name

/-- The write `ent->val = v` through the pointer `lookup_table` returned for `name`: the
first node of that name gets the value. -/
def set_val (sym_head : symtab_t) (name : CStr) (v : Int) : symtab_t :=
  match sym_head with
  | [] => []
  | cur :: next =>
    if cur.var_name = name then { cur with val := v } :: next
    else cur :: set_val next name v

/-! ## Evaluator (`parser.c`) -/

/-- The l-value test of the `ASSIGN_OP` branch: the left child must be a leaf, else
"Missing l-value", and a `SYMBOL` leaf, else "Invalid l-value"; the result is its token. -/
def lvalue_name (left : tree_node_t) : Except String CStr :=
  match left with
  | .leaf exp_type token =>
    if exp_type ≠ SYMBOL then .error "Invalid l-value" else .ok token
  | _ => .error "Missing l-value"

/-- The store of the `ASSIGN_OP` branch: the entry found by `lookup_table` gets `(int)rval`,
and when there is none `create_symbol` makes one. -/
def store_symbol (sym_head : symtab_t) (name : CStr) (rval : Int) : symtab_t :=
  match lookup_table sym_head name with
  | some _ => set_val sym_head name (to_int rval)
  | none => create_symbol sym_head name (to_int rval)

/-- The stop of the process by SIGFPE. No value is produced, no message is stored in `*err` and
`eval_tree` does not return; the embedding records the stop as a failure with this marker, a
text that the code never stores, and gives with it the table as it was at the stop. -/
def SIGFPE_TRAP : String := "process killed by SIGFPE"

/-- The `switch (in->op)` of the binary branch, applied to the two operand values. `DIV_OP` and
`MOD_OP` test only `rv == 0` before they divide; `lv / rv` and `lv % rv` at `LONG_MIN` and `-1`
overflow in the divide instruction and the process is killed by SIGFPE. -/
def apply_op (op : op_type_t) (lv rv : Int) : Except String Int :=
  match op with
  | ADD_OP => .ok (wrap_long (lv + rv))
  | SUB_OP => .ok (wrap_long (lv - rv))
  | MUL_OP => .ok (wrap_long (lv * rv))
  | DIV_OP =>
    if rv = 0 then .error "Division by zero"
    else if lv = LONG_MIN ∧ rv = -1 then .error SIGFPE_TRAP
    else .ok (wrap_long (Int.tdiv lv rv))
  | MOD_OP =>
    if rv = 0 then .error "Division by zero"
    else if lv = LONG_MIN ∧ rv = -1 then .error SIGFPE_TRAP
    else .ok (wrap_long (Int.tmod lv rv))
  | _ => .error "Unknown operation"

/-- Function `eval_tree`: the value or the error message, and the symbol table as evaluation
leaves it. The failure `SIGFPE_TRAP` of a division is passed up like an error: the evaluation
stops there. -/
def eval_tree : tree_node_t → symtab_t → Except String Int × symtab_t
  | .null, st => (.error "Unknown node type", st)
  | .leaf INTEGER token, st => (.ok (strtol token), st)
  | .leaf SYMBOL token, st =>
    match lookup_table st token with
    | none => (.error "Undefined symbol", st)
    | some s => (.ok s.val, st)
  | .interior Q_OP _ left (.interior _ _ alt_left alt_right), st =>
    match eval_tree left st with
    | (.error e, st1) => (.error e, st1)
    | (.ok testv, st1) =>
      if testv ≠ 0 then eval_tree alt_left st1 else eval_tree alt_right st1
  | .interior Q_OP _ left _, st =>
    match eval_tree left st with
    | (.error e, st1) => (.error e, st1)
    | (.ok _, st1) => (.error "Unknown node type", st1)
  | .interior ASSIGN_OP _ left right, st =>
    match lvalue_name left with
    | .error e => (.error e, st)
    | .ok name =>
      match eval_tree right st with
      | (.error e, st1) => (.error e, st1)
      | (.ok rval, st1) => (.ok rval, store_symbol st1 name rval)
  | .interior op _ left right, st =>
    match eval_tree left st with
    | (.error e, st1) => (.error e, st1)
    | (.ok lv, st1) =>
      match eval_tree right st1 with
      | (.error e, st2) => (.error e, st2)
      | (.ok rv, st2) =>
        match apply_op op lv rv with
        | .error e => (.error e, st2)
        | .ok v => (.ok v, st2)

/-- The parse-then-evaluate step of the loop of `main` in `interp.c`: a parse error is reported
and the table is untouched, otherwise the tree is evaluated against the table. -/
def parse_eval (line : CStr) (st : symtab_t) : Except String Int × symtab_t :=
  match parse_line line with
  | .error e => (.error e, st)
  | .ok root => eval_tree root st

/-! ## Specification-level notions -/

/-- The pattern `[0-9]+`: a non-empty string of digits. -/
def digits_pattern (t : CStr) : Bool := !t.isEmpty && t.all isdigit

/-- The pattern `[A-Za-z][A-Za-z0-9]*`: a letter followed by letters and digits. -/
def symbol_pattern (t : CStr) : Bool :=
  (t.head?.map isalpha).getD false && t.tail.all isalnum

/-- The display token of each binary operator tag. -/
def binop_token : op_type_t → Option CStr
  | ADD_OP => some ['+']
  | SUB_OP => some ['-']
  | MUL_OP => some ['*']
  | DIV_OP => some ['/']
  | MOD_OP => some ['%']
  | ASSIGN_OP => some ['=']
  | _ => none

/-- Well-formed expression trees: Integer leaves with a `[0-9]+` token, Symbol leaves with a
`[A-Za-z][A-Za-z0-9]*` token, binary nodes whose token is the one of their operator tag, and
Ternary nodes with token `?` whose right child is an Alt node with token `:`. Alt nodes occur
nowhere else and no pointer is null. -/
inductive WellFormed : tree_node_t → Prop where
  | integer (token : CStr) : digits_pattern token = true →
      WellFormed (tree_node_t.leaf INTEGER token)
  | symbol (token : CStr) : symbol_pattern token = true →
      WellFormed (tree_node_t.leaf SYMBOL token)
  | binary (op : op_type_t) (token : CStr) (left right : tree_node_t) :
      binop_token op = some token → WellFormed left → WellFormed right →
      WellFormed (tree_node_t.interior op token left right)
  | ternary (a b c : tree_node_t) : WellFormed a → WellFormed b → WellFormed c →
      WellFormed (tree_node_t.interior Q_OP ['?'] a (tree_node_t.interior ALT_OP [':'] b c))

/-- Postfix serialisation as a token sequence: a leaf is its token, `l op r` is the tokens of
`l`, those of `r`, then `op`, and `Ternary(a, Alt(b, c))` is the tokens of `a`, `b`, `c`,
then `?`. -/
def serialise : tree_node_t → List CStr
  | .null => []
  | .leaf _ token => [token]
  | .interior Q_OP token a (.interior ALT_OP _ b c) =>
    serialise a ++ serialise b ++ serialise c ++ [token]
  | .interior _ token left right => serialise left ++ serialise right ++ [token]

/-- The tokens written on one line, joined by single spaces. -/
def join_tokens : List CStr → CStr
  | [] => []
  | [t] => t
  | t :: u :: ts => t ++ ' ' :: join_tokens (u :: ts)

/-- The number a string of decimal digits denotes in base 10. -/
def decimal_value (t : CStr) : Nat :=
  t.foldl (fun acc c => acc * 10 + (c.toNat - 48)) 0

/-- The error message of a parse that ran out of tokens. -/
def NOT_ENOUGH : String := "Invalid expression, not enough tokens"

/-- The error message of a parse that left tokens on the stack. -/
def TOO_MANY : String := "Invalid expression, too many tokens"


/-! ## Infix printer (`tree_node.c`) -/

/-- Function `print_infix` of `tree_node.c`: the text it writes to standard output. Nothing is
written for a null pointer, a leaf writes its token, an interior node writes `(`, its left
subtree, its token, its right subtree and `)`. -/
def print_infix : tree_node_t → CStr
  | .null => []
  | .leaf _ token => token
  | .interior _ token left right =>
    ['('] ++ ( print_infix left ++ (token ++ ( print_infix right ++ [')'])))

/-! ## Specification-level notions of the later claims -/

/-- Infix rendering in the words of the specification: a leaf renders as its literal token text,
an interior node as `(` + render(left) + operator token + render(right) + `)`; the Ternary and
Alt nodes follow the same rule. An absent subtree contributes no text. -/
def render : tree_node_t → CStr
  | .null => []
  | .leaf _ token => token
  | .interior _ token left right => '(' :: render left ++ token ++ render right ++ [')']

/-- The number of interior nodes of a tree. -/
def interior_count : tree_node_t → Nat
  | .null => 0
  | .leaf _ _ => 0
  | .interior _ _ left right => interior_count left + interior_count right + 1

/-- The name an Assign node with this left child may write: the token of a Symbol leaf. -/
def lvalue_names (left : tree_node_t) : List CStr :=
  match lvalue_name left with
  | .ok name => [name]
  | .error _ => []

/-- The names that are the left operand of some Assign node of the tree. -/
def assigned_names : tree_node_t → List CStr
  | .null => []
  | .leaf _ _ => []
  | .interior op _ left right =>
    (if op = ASSIGN_OP then lvalue_names left else []) ++
      (assigned_names left ++ assigned_names right)

/-- Whether the tree contains an Assign node. -/
def contains_assign : tree_node_t → Bool
  | .null => false
  | .leaf _ _ => false
  | .interior op _ left right =>
    decide (op = ASSIGN_OP) || contains_assign left || contains_assign right

/-- The table after a sequence of stores, each of a name and a value, first store first. -/
def store_all (sym_head : symtab_t) (writes : List (CStr × Int)) : symtab_t :=
  writes.foldl (fun st w => store_symbol st w.1 w.2) sym_head

/-- The error messages of the evaluation error taxonomy of the specification: UndefinedSymbol,
DivisionByZero, MissingLValue, InvalidLValue, SymbolTableFull. -/
def EVAL_ERRORS : List String :=
  ["Undefined symbol", "Division by zero", "Missing l-value", "Invalid l-value",
    "No room in symbol table"]

/-- The five arithmetic operator tags. -/
def is_arith (op : op_type_t) : Bool :=
  match op with
  | ADD_OP | SUB_OP | MUL_OP | DIV_OP | MOD_OP => true
  | _ => false

/-- Membership in the character range from `lo` to `hi`, as in the pattern `[lo-hi]`. -/
def in_range (lo hi c : Char) : Prop := lo ≤ c ∧ c ≤ hi

/-- No two entries of the symbol table carry the same name. -/
def names_unique (sym_head : symtab_t) : Prop :=
  (sym_head.map symbol_t.var_name).Nodup

instance names_unique_decidable (sym_head : symtab_t) : Decidable (names_unique sym_head) :=
  inferInstanceAs (Decidable (sym_head.map symbol_t.var_name).Nodup)

/-! ## Character classes and token classes -/

theorem isdigit_not_isalpha {c : Char} (h : isdigit c = true) : isalpha c = false := by
  simp only [isdigit, Bool.and_eq_true, decide_eq_true_eq] at h
  simp only [isalpha, Bool.or_eq_false_iff, Bool.and_eq_false_iff, decide_eq_false_iff_not]
  omega

theorem isdigit_not_delim {c : Char} (h : isdigit c = true) : is_delim c = false := by
  simp only [isdigit, Bool.and_eq_true, decide_eq_true_eq] at h
  simp only [is_delim, Bool.or_eq_false_iff, beq_eq_false_iff_ne, ne_eq]
  omega

theorem isalpha_not_delim {c : Char} (h : isalpha c = true) : is_delim c = false := by
  simp only [isalpha, Bool.or_eq_true, Bool.and_eq_true, decide_eq_true_eq] at h
  simp only [is_delim, Bool.or_eq_false_iff, beq_eq_false_iff_ne, ne_eq]
  omega

theorem isalnum_not_delim {c : Char} (h : isalnum c = true) : is_delim c = false := by
  simp only [isalnum, Bool.or_eq_true] at h
  rcases h with h | h
  · exact isalpha_not_delim h
  · exact isdigit_not_delim h

theorem is_op_singleton {t : CStr} (h : is_op t = true) :
    ∃ c, t = [c] ∧ (c = '+' ∨ c = '-' ∨ c = '*' ∨ c = '/' ∨ c = '%' ∨ c = '=' ∨ c = '?') := by
  match t, h with
  | [c], h =>
    refine ⟨c, rfl, ?_⟩
    simpa [is_op, or_assoc] using h

theorem is_integer_token_eq (t : CStr) : is_integer_token t = digits_pattern t := by
  cases t with
  | nil => rfl
  | cons c cs => simp [is_integer_token, digits_pattern]

theorem is_symbol_token_eq (t : CStr) : is_symbol_token t = symbol_pattern t := by
  cases t with
  | nil => rfl
  | cons c cs => simp [is_symbol_token, symbol_pattern]

theorem digits_pattern_all {t : CStr} (h : digits_pattern t = true) :
    t ≠ [] ∧ ∀ c ∈ t, isdigit c = true := by
  simpa [digits_pattern] using h

theorem symbol_pattern_cons {t : CStr} (h : symbol_pattern t = true) :
    ∃ c cs, t = c :: cs ∧ isalpha c = true ∧ ∀ d ∈ cs, isalnum d = true := by
  cases t with
  | nil => simp [symbol_pattern] at h
  | cons c cs => exact ⟨c, cs, rfl, by simpa [symbol_pattern] using h⟩

theorem digits_not_op {t : CStr} (h : digits_pattern t = true) : is_op t = false := by
  cases hop : is_op t with
  | false => rfl
  | true =>
    obtain ⟨c, rfl, hc⟩ := is_op_singleton hop
    have hd : isdigit c = true := (digits_pattern_all h).2 c (by simp)
    rcases hc with rfl | rfl | rfl | rfl | rfl | rfl | rfl <;> revert hd <;> decide

theorem symbol_not_op {t : CStr} (h : symbol_pattern t = true) : is_op t = false := by
  cases hop : is_op t with
  | false => rfl
  | true =>
    obtain ⟨c, rfl, hc⟩ := is_op_singleton hop
    have hd : isalpha c = true := by simpa [symbol_pattern] using h
    rcases hc with rfl | rfl | rfl | rfl | rfl | rfl | rfl <;> revert hd <;> decide

theorem symbol_not_integer {t : CStr} (h : symbol_pattern t = true) :
    is_integer_token t = false := by
  obtain ⟨c, cs, rfl, hc, -⟩ := symbol_pattern_cons h
  cases hd : isdigit c with
  | false => simp [is_integer_token, hd]
  | true => rw [isdigit_not_isalpha hd] at hc; cases hc

theorem binop_token_spec {op : op_type_t} {token : CStr} (h : binop_token op = some token) :
    is_op token = true ∧ token.headD (Char.ofNat 0) ≠ '?' ∧
      op_of_char (token.headD (Char.ofNat 0)) = op := by
  cases op <;> simp [binop_token] at h <;> subst h <;> decide

/-- Every token of a well-formed tree is non-empty and free of delimiters. -/
theorem serialise_tokens_clean {t : tree_node_t} (h : WellFormed t) :
    ∀ tok ∈ serialise t, tok ≠ [] ∧ ∀ c ∈ tok, is_delim c = false := by
  induction h with
  | integer token hd =>
    intro tok htok
    simp only [serialise, List.mem_singleton] at htok
    subst htok
    obtain ⟨hne, hall⟩ := digits_pattern_all hd
    exact ⟨hne, fun c hc => isdigit_not_delim (hall c hc)⟩
  | symbol token hs =>
    intro tok htok
    simp only [serialise, List.mem_singleton] at htok
    subst htok
    obtain ⟨c, cs, rfl, hc, hcs⟩ := symbol_pattern_cons hs
    refine ⟨by simp, fun d hd => ?_⟩
    rcases List.mem_cons.1 hd with rfl | hd
    · exact isalpha_not_delim hc
    · exact isalnum_not_delim (hcs d hd)
  | binary op token left right hop _ _ ihl ihr =>
    intro tok htok
    have hser : serialise (tree_node_t.interior op token left right)
        = serialise left ++ serialise right ++ [token] := by
      cases op <;> simp [binop_token] at hop <;> simp [serialise]
    rw [hser] at htok
    simp only [List.mem_append, List.mem_singleton] at htok
    rcases htok with (h1 | h1) | rfl
    · exact ihl tok h1
    · exact ihr tok h1
    · cases op <;> simp [binop_token] at hop <;> subst hop <;> decide
  | ternary a b c _ _ _ iha ihb ihc =>
    intro tok htok
    simp only [serialise, List.mem_append, List.mem_singleton] at htok
    rcases htok with ((h1 | h1) | h1) | rfl
    · exact iha tok h1
    · exact ihb tok h1
    · exact ihc tok h1
    · decide

/-! ## Tokenizer -/

theorem strtok_all_append {tok : CStr} (h : ∀ c ∈ tok, is_delim c = false) :
    ∀ (cur : CStr) (rest : List Char),
      strtok_all cur (tok ++ rest) = strtok_all (cur ++ tok) rest := by
  induction tok with
  | nil => intro cur rest; simp
  | cons c cs ih =>
    intro cur rest
    have hc : is_delim c = false := h c (by simp)
    have hcs : ∀ d ∈ cs, is_delim d = false := fun d hd => h d (by simp [hd])
    have hstep : strtok_all cur (c :: cs ++ rest) = strtok_all (cur ++ [c]) (cs ++ rest) := by
      simp only [List.cons_append, strtok_all, hc, Bool.false_eq_true, if_false]
      rfl
    rw [hstep, ih hcs]
    simp

theorem strtok_all_join : ∀ (toks : List CStr),
    (∀ tok ∈ toks, tok ≠ [] ∧ ∀ c ∈ tok, is_delim c = false) →
    strtok_all [] (join_tokens toks) = toks
  | [], _ => by simp [join_tokens, strtok_all]
  | [t], h => by
    obtain ⟨hne, hd⟩ := h t (by simp)
    have := strtok_all_append hd [] []
    simp only [List.append_nil, List.nil_append] at this
    simp [join_tokens, this, strtok_all, hne]
  | t :: u :: ts, h => by
    obtain ⟨hne, hd⟩ := h t (by simp)
    have ih := strtok_all_join (u :: ts) (fun tok htok => h tok (by simp [htok]))
    have hsp : is_delim ' ' = true := by decide
    rw [join_tokens, strtok_all_append hd]
    simp [strtok_all, hsp, hne, ih]

theorem foldl_push (toks : List CStr) : ∀ (stk : stack_t),
    toks.foldl push stk = toks.reverse ++ stk := by
  induction toks with
  | nil => intro stk; rfl
  | cons t ts ih => intro stk; simp [List.foldl, ih, push]

theorem tokenize_line_eq (line : CStr) :
    tokenize_line line make_stack = (strtok_all [] line).reverse := by
  simp [tokenize_line, foldl_push, make_stack]

/-! ## One step of the parser, by class of the popped token -/

theorem parse_fuel_integer {token : CStr} (h : digits_pattern token = true)
    (fuel : Nat) (tokstack : stack_t) :
    parse_from_stack_fuel (fuel + 1) (token :: tokstack)
      = (.ok (tree_node_t.leaf INTEGER token), tokstack) := by
  simp [parse_from_stack_fuel, digits_not_op h, is_integer_token_eq, h, make_leaf]

theorem parse_fuel_symbol {token : CStr} (h : symbol_pattern token = true)
    (fuel : Nat) (tokstack : stack_t) :
    parse_from_stack_fuel (fuel + 1) (token :: tokstack)
      = (.ok (tree_node_t.leaf SYMBOL token), tokstack) := by
  simp [parse_from_stack_fuel, symbol_not_op h, symbol_not_integer h, is_symbol_token_eq, h,
    make_leaf]

theorem parse_fuel_binary {op : op_type_t} {token : CStr} (h : binop_token op = some token)
    (fuel : Nat) (tokstack : stack_t) :
    parse_from_stack_fuel (fuel + 1) (token :: tokstack)
      = match parse_from_stack_fuel fuel tokstack with
        | (.error e, s1) => (.error e, s1)
        | (.ok right, s1) =>
          match parse_from_stack_fuel fuel s1 with
          | (.error e, s2) => (.error e, s2)
          | (.ok left, s2) => (.ok (tree_node_t.interior op token left right), s2) := by
  cases op <;> simp [binop_token] at h <;> subst h <;>
    simp [parse_from_stack_fuel, is_op, op_of_char, make_interior]

theorem parse_fuel_ternary (fuel : Nat) (tokstack : stack_t) :
    parse_from_stack_fuel (fuel + 1) (['?'] :: tokstack)
      = match parse_from_stack_fuel fuel tokstack with
        | (.error e, s1) => (.error e, s1)
        | (.ok c, s1) =>
          match parse_from_stack_fuel fuel s1 with
          | (.error e, s2) => (.error e, s2)
          | (.ok b, s2) =>
            match parse_from_stack_fuel fuel s2 with
            | (.error e, s3) => (.error e, s3)
            | (.ok a, s3) =>
              (.ok (tree_node_t.interior Q_OP ['?'] a (tree_node_t.interior ALT_OP [':'] b c)),
                s3) := by
  have h1 : is_op ['?'] = true := by decide
  simp [parse_from_stack_fuel, h1, make_interior]

theorem serialise_binary {op : op_type_t} {token : CStr} (h : binop_token op = some token)
    (left right : tree_node_t) :
    serialise (tree_node_t.interior op token left right)
      = serialise left ++ serialise right ++ [token] := by
  cases op <;> simp [binop_token] at h <;> simp [serialise]

theorem serialise_ternary (token alt_token : CStr) (a b c : tree_node_t) :
    serialise (tree_node_t.interior Q_OP token a (tree_node_t.interior ALT_OP alt_token b c))
      = serialise a ++ serialise b ++ serialise c ++ [token] := by
  simp [serialise]

/-! ## The parser inverts serialisation -/

/-- On a stack that holds the serialisation of a well-formed tree on top of `rest`, the parser
returns the tree and leaves `rest`. -/
theorem parse_fuel_serialise {t : tree_node_t} (h : WellFormed t) :
    ∀ (n : Nat) (rest : stack_t), (serialise t).length ≤ n →
      parse_from_stack_fuel n ((serialise t).reverse ++ rest) = (.ok t, rest) := by
  induction h with
  | integer token hd =>
    intro n rest hn
    cases n with
    | zero => simp [serialise] at hn
    | succ m => simpa [serialise] using parse_fuel_integer hd m rest
  | symbol token hs =>
    intro n rest hn
    cases n with
    | zero => simp [serialise] at hn
    | succ m => simpa [serialise] using parse_fuel_symbol hs m rest
  | binary op token left right hop _ _ ihl ihr =>
    intro n rest hn
    rw [serialise_binary hop] at hn ⊢
    simp only [List.length_append, List.length_singleton] at hn
    cases n with
    | zero => omega
    | succ m =>
      simp only [List.reverse_append, List.reverse_cons, List.reverse_nil, List.nil_append,
        List.singleton_append, List.cons_append, List.append_assoc]
      rw [parse_fuel_binary hop, ihr m _ (by omega)]
      simp only
      rw [ihl m _ (by omega)]
  | ternary a b c _ _ _ iha ihb ihc =>
    intro n rest hn
    rw [serialise_ternary] at hn ⊢
    simp only [List.length_append, List.length_singleton] at hn
    cases n with
    | zero => omega
    | succ m =>
      simp only [List.reverse_append, List.reverse_cons, List.reverse_nil, List.nil_append,
        List.singleton_append, List.cons_append, List.append_assoc]
      rw [parse_fuel_ternary, ihc m _ (by omega)]
      simp only
      rw [ihb m _ (by omega)]
      simp only
      rw [iha m _ (by omega)]

theorem serialise_ne_nil {t : tree_node_t} (h : WellFormed t) : serialise t ≠ [] := by
  cases h with
  | integer token hd => simp [serialise]
  | symbol token hs => simp [serialise]
  | binary op token left right hop _ _ => rw [serialise_binary hop]; simp
  | ternary a b c _ _ _ => rw [serialise_ternary]; simp

/-- A line whose tokens are the serialisation of a well-formed tree parses to that tree. -/
theorem parse_line_of_tokens {t : tree_node_t} (h : WellFormed t) {line : CStr}
    (hl : strtok_all [] line = serialise t) : parse_line line = .ok t := by
  have hne := serialise_ne_nil h
  have hp := parse_fuel_serialise h ((serialise t).length + 1) [] (by simp)
  simp only [List.append_nil] at hp
  simp [parse_line, tokenize_line_eq, hl, empty_stack, hne, parse_from_stack, hp]

/-- The line that joins the serialisation of a well-formed tree by single spaces parses to it. -/
theorem parse_line_join {t : tree_node_t} (h : WellFormed t) :
    parse_line (join_tokens (serialise t)) = .ok t :=
  parse_line_of_tokens h (strtok_all_join _ (serialise_tokens_clean h))

/-! ## Soundness of the parser -/

theorem op_of_char_token {c : Char}
    (hc : c = '+' ∨ c = '-' ∨ c = '*' ∨ c = '/' ∨ c = '%' ∨ c = '=' ∨ c = '?')
    (hq : c ≠ '?') : binop_token (op_of_char c) = some [c] := by
  rcases hc with rfl | rfl | rfl | rfl | rfl | rfl | rfl
  all_goals first | rfl | exact absurd rfl hq

/-- Whatever tree the parser returns is well-formed, and the tokens it popped are the
serialisation of that tree. -/
theorem parse_fuel_sound : ∀ (n : Nat) (s : stack_t) (t : tree_node_t) (rest : stack_t),
    parse_from_stack_fuel n s = (.ok t, rest) →
      WellFormed t ∧ s = (serialise t).reverse ++ rest := by
  intro n
  induction n with
  | zero => intro s t rest h; simp [parse_from_stack_fuel] at h
  | succ m ih =>
    intro s t rest h
    cases s with
    | nil => simp [parse_from_stack_fuel] at h
    | cons token tokstack =>
      cases hop : is_op token with
      | true =>
        obtain ⟨ch, rfl, hch⟩ := is_op_singleton hop
        by_cases hq : ch = '?'
        · subst hq
          rw [parse_fuel_ternary] at h
          rcases h1 : parse_from_stack_fuel m tokstack with ⟨_ | c, s1⟩
          · simp [h1] at h
          rcases h2 : parse_from_stack_fuel m s1 with ⟨_ | b, s2⟩
          · simp [h1, h2] at h
          rcases h3 : parse_from_stack_fuel m s2 with ⟨_ | a, s3⟩
          · simp [h1, h2, h3] at h
          simp only [h1, h2, h3, Prod.mk.injEq, Except.ok.injEq] at h
          obtain ⟨rfl, rfl⟩ := h
          obtain ⟨wc, ec⟩ := ih _ _ _ h1
          obtain ⟨wb, eb⟩ := ih _ _ _ h2
          obtain ⟨wa, ea⟩ := ih _ _ _ h3
          refine ⟨WellFormed.ternary a b c wa wb wc, ?_⟩
          rw [serialise_ternary, ec, eb, ea]
          simp
        · have hbin := op_of_char_token hch hq
          rw [parse_fuel_binary hbin] at h
          rcases h1 : parse_from_stack_fuel m tokstack with ⟨_ | r, s1⟩
          · simp [h1] at h
          rcases h2 : parse_from_stack_fuel m s1 with ⟨_ | l, s2⟩
          · simp [h1, h2] at h
          simp only [h1, h2, Prod.mk.injEq, Except.ok.injEq] at h
          obtain ⟨rfl, rfl⟩ := h
          obtain ⟨wr, er⟩ := ih _ _ _ h1
          obtain ⟨wl, el⟩ := ih _ _ _ h2
          refine ⟨WellFormed.binary _ _ l r hbin wl wr, ?_⟩
          rw [serialise_binary hbin, er, el]
          simp
      | false =>
        cases hint : is_integer_token token with
        | true =>
          simp only [parse_from_stack_fuel, hop, hint, Bool.false_eq_true, if_false, if_true,
            make_leaf, Prod.mk.injEq, Except.ok.injEq] at h
          obtain ⟨rfl, rfl⟩ := h
          exact ⟨WellFormed.integer token (by rw [← is_integer_token_eq]; exact hint),
            by simp [serialise]⟩
        | false =>
          cases hsym : is_symbol_token token with
          | true =>
            simp only [parse_from_stack_fuel, hop, hint, hsym, Bool.false_eq_true, if_false,
              if_true, make_leaf, Prod.mk.injEq, Except.ok.injEq] at h
            obtain ⟨rfl, rfl⟩ := h
            exact ⟨WellFormed.symbol token (by rw [← is_symbol_token_eq]; exact hsym),
              by simp [serialise]⟩
          | false => simp [parse_from_stack_fuel, hop, hint, hsym] at h

/-- A tree returned by `parse_line` is well-formed, its serialisation is the token sequence of
the line, and the parser left the stack empty. -/
theorem parse_line_sound {line : CStr} {t : tree_node_t} (h : parse_line line = .ok t) :
    WellFormed t ∧ strtok_all [] line = serialise t ∧
      parse_from_stack (tokenize_line line make_stack) = (.ok t, []) := by
  simp only [parse_line] at h
  split at h
  · cases h
  · rcases hp : parse_from_stack (tokenize_line line make_stack) with ⟨e | root, rest⟩
    · simp [hp] at h
    · simp only [hp] at h
      cases rest with
      | cons x xs => simp [empty_stack] at h
      | nil =>
        simp only [empty_stack, List.isEmpty_nil, Bool.not_true, Bool.false_eq_true, if_false,
          Except.ok.injEq] at h
        subst h
        obtain ⟨wf, hs⟩ := parse_fuel_sound _ _ _ _ hp
        rw [tokenize_line_eq, List.append_nil] at hs
        exact ⟨wf, by simpa using congrArg List.reverse hs, rfl⟩

/-! ## Too few tokens -/

/-- Parsing a stack that holds a front part `p` of `serialise t` followed by `tail`: either the
tokens run out, or the whole of `t` is there and is returned. -/
theorem parse_fuel_front {t : tree_node_t} (hwf : WellFormed t)
    (hshort : ∀ (n : Nat) (p q : stack_t), p ++ q = (serialise t).reverse → q ≠ [] →
      p.length < n → ∃ rest, parse_from_stack_fuel n p = (.error NOT_ENOUGH, rest))
    (n : Nat) (p q tail : stack_t) (h : p ++ q = (serialise t).reverse ++ tail)
    (hn : p.length < n) :
    (∃ rest, parse_from_stack_fuel n p = (.error NOT_ENOUGH, rest)) ∨
      (∃ p2, p = (serialise t).reverse ++ p2 ∧ p2 ++ q = tail ∧
        parse_from_stack_fuel n p = (.ok t, p2)) := by
  rcases List.append_eq_append_iff.1 h with ⟨a1, h1, h2⟩ | ⟨c1, h1, h2⟩
  · cases a1 with
    | nil =>
      right
      refine ⟨[], by simpa using h1.symm, by simpa using h2, ?_⟩
      have := parse_fuel_serialise hwf n [] (by
        have : p.length = (serialise t).length := by
          rw [List.append_nil] at h1; rw [← h1]; simp
        omega)
      rw [List.append_nil] at h1 this
      rw [← h1]; exact this
    | cons x xs => exact Or.inl (hshort n p (x :: xs) h1.symm (by simp) hn)
  · right
    refine ⟨c1, h1, h2.symm, ?_⟩
    rw [h1]
    exact parse_fuel_serialise hwf n c1 (by
      have : p.length = (serialise t).length + c1.length := by rw [h1]; simp
      omega)

/-- The parser runs out of tokens on every proper front part of the reversed serialisation of a
well-formed tree, that is on every proper suffix of its serialisation. -/
theorem parse_fuel_short {t : tree_node_t} (hwf : WellFormed t) :
    ∀ (n : Nat) (p q : stack_t), p ++ q = (serialise t).reverse → q ≠ [] →
      p.length < n → ∃ rest, parse_from_stack_fuel n p = (.error NOT_ENOUGH, rest) := by
  induction hwf with
  | integer token hd =>
    intro n p q h hq hn
    cases p with
    | nil =>
      cases n with
      | zero => omega
      | succ m => exact ⟨[], rfl⟩
    | cons x xs =>
      have := congrArg List.length h
      simp [serialise] at this
      cases q with
      | nil => exact absurd rfl hq
      | cons y ys => simp at this
  | symbol token hs =>
    intro n p q h hq hn
    cases p with
    | nil =>
      cases n with
      | zero => omega
      | succ m => exact ⟨[], rfl⟩
    | cons x xs =>
      have := congrArg List.length h
      simp [serialise] at this
      cases q with
      | nil => exact absurd rfl hq
      | cons y ys => simp at this
  | binary op token left right hop wl wr ihl ihr =>
    intro n p q h hq hn
    cases n with
    | zero => omega
    | succ m =>
      cases p with
      | nil => exact ⟨[], rfl⟩
      | cons x xs =>
        rw [serialise_binary hop] at h
        simp only [List.reverse_append, List.reverse_cons, List.reverse_nil, List.nil_append,
          List.singleton_append, List.cons_append, List.cons.injEq] at h
        obtain ⟨rfl, h⟩ := h
        simp only [List.length_cons] at hn
        rw [parse_fuel_binary hop]
        rcases parse_fuel_front wr ihr m xs q _ h (by omega) with ⟨rest, e1⟩ | ⟨p2, e0, e2, e1⟩
        · exact ⟨rest, by rw [e1]⟩
        · obtain ⟨rest, e3⟩ := ihl m p2 q e2 hq (by
            have : xs.length = (serialise right).length + p2.length := by rw [e0]; simp
            omega)
          exact ⟨rest, by rw [e1]; simp only; rw [e3]⟩
  | ternary a b c wa wb wc iha ihb ihc =>
    intro n p q h hq hn
    cases n with
    | zero => omega
    | succ m =>
      cases p with
      | nil => exact ⟨[], rfl⟩
      | cons x xs =>
        rw [serialise_ternary] at h
        simp only [List.reverse_append, List.reverse_cons, List.reverse_nil, List.nil_append,
          List.singleton_append, List.cons_append, List.cons.injEq, List.append_assoc] at h
        obtain ⟨rfl, h⟩ := h
        simp only [List.length_cons] at hn
        rw [parse_fuel_ternary]
        rcases parse_fuel_front wc ihc m xs q _ h (by omega) with ⟨rest, e1⟩ | ⟨p2, e0, e2, e1⟩
        · exact ⟨rest, by rw [e1]⟩
        have hp2 : p2.length ≤ xs.length := by rw [e0]; simp
        rcases parse_fuel_front wb ihb m p2 q _ e2 (by omega) with
          ⟨rest, e3⟩ | ⟨p3, e4, e5, e3⟩
        · exact ⟨rest, by rw [e1]; simp only; rw [e3]⟩
        have hp3 : p3.length ≤ p2.length := by rw [e4]; simp
        obtain ⟨rest, e6⟩ := iha m p3 q e5 hq (by omega)
        exact ⟨rest, by rw [e1]; simp only; rw [e3]; simp only; rw [e6]⟩

/-- A line whose tokens are a proper suffix of the serialisation of a well-formed tree fails
with the not-enough-tokens message. -/
theorem parse_line_short {t : tree_node_t} (hwf : WellFormed t) {line : CStr}
    {front : List CStr} (hfront : front ≠ [])
    (hl : front ++ strtok_all [] line = serialise t) :
    parse_line line = .error NOT_ENOUGH := by
  cases htoks : strtok_all [] line with
  | nil => simp [parse_line, tokenize_line_eq, htoks, empty_stack, NOT_ENOUGH]
  | cons x xs =>
    have hrev : (strtok_all [] line).reverse ++ front.reverse = (serialise t).reverse := by
      rw [← hl]; simp
    obtain ⟨rest, hp⟩ := parse_fuel_short hwf ((strtok_all [] line).reverse.length + 1)
      (strtok_all [] line).reverse front.reverse hrev (by simpa using hfront) (by omega)
    simp only [parse_line, tokenize_line_eq, parse_from_stack, hp]
    simp [htoks, empty_stack]

/-! ## Too many tokens -/

/-- A line whose tokens are a non-empty sequence followed by the serialisation of a well-formed
tree fails with the too-many-tokens message. -/
theorem parse_line_long {t : tree_node_t} (hwf : WellFormed t) {line : CStr}
    {q : List CStr} (hq : q ≠ []) (hl : strtok_all [] line = q ++ serialise t) :
    parse_line line = .error TOO_MANY := by
  have hp := parse_fuel_serialise hwf (((serialise t).reverse ++ q.reverse).length + 1)
    q.reverse (by simp; omega)
  have hne : q.reverse ≠ [] := by simpa using hq
  simp only [parse_line, tokenize_line_eq, parse_from_stack, hl]
  rw [List.reverse_append, hp]
  simp [empty_stack, hne, hq, TOO_MANY, serialise_ne_nil hwf]

/-! ## The recursion bound is never reached -/

/-- The parser only pops: the stack it leaves is no longer than the one it was given. -/
theorem parse_fuel_rest_le : ∀ (n : Nat) (s : stack_t),
    (parse_from_stack_fuel n s).2.length ≤ s.length := by
  intro n
  induction n with
  | zero => intro s; simp [parse_from_stack_fuel]
  | succ m ih =>
    intro s
    cases s with
    | nil => simp [parse_from_stack_fuel]
    | cons token tokstack =>
      have h1 := ih tokstack
      simp only [parse_from_stack_fuel, List.length_cons]
      rcases e1 : parse_from_stack_fuel m tokstack with ⟨_ | c, s1⟩
      · rw [e1] at h1
        split_ifs <;> simp at h1 ⊢ <;> omega
      rw [e1] at h1
      have h2 := ih s1
      rcases e2 : parse_from_stack_fuel m s1 with ⟨_ | b, s2⟩
      · rw [e2] at h2
        split_ifs <;> simp [e2] at h1 h2 ⊢ <;> omega
      rw [e2] at h2
      have h3 := ih s2
      rcases e3 : parse_from_stack_fuel m s2 with ⟨_ | a, s3⟩
      · rw [e3] at h3
        split_ifs <;> simp [e2, e3] at h1 h2 h3 ⊢ <;> omega
      · rw [e3] at h3
        split_ifs <;> simp [e2, e3] at h1 h2 h3 ⊢ <;> omega

/-- With a bound above the length of the stack the parser never stops on the bound: the
recursion of `parse_from_stack` always ends by itself. -/
theorem parse_fuel_terminates : ∀ (n : Nat) (s : stack_t), s.length < n →
    (parse_from_stack_fuel n s).1 ≠ .error "recursion bound exceeded" := by
  intro n
  induction n with
  | zero => intro s h; omega
  | succ m ih =>
    intro s hlen
    cases s with
    | nil => simp [parse_from_stack_fuel]
    | cons token tokstack =>
      simp only [List.length_cons] at hlen
      have l1 := parse_fuel_rest_le m tokstack
      have h1 := ih tokstack (by omega)
      simp only [parse_from_stack_fuel]
      rcases e1 : parse_from_stack_fuel m tokstack with ⟨_ | c, s1⟩
      · rw [e1] at h1
        split_ifs <;> simp at h1 ⊢ <;> exact h1
      rw [e1] at l1
      simp only at l1
      have l2 := parse_fuel_rest_le m s1
      have h2 := ih s1 (by omega)
      rcases e2 : parse_from_stack_fuel m s1 with ⟨_ | b, s2⟩
      · rw [e2] at h2
        split_ifs <;> simp [e2] at h2 ⊢ <;> exact h2
      rw [e2] at l2
      simp only at l2
      have h3 := ih s2 (by omega)
      rcases e3 : parse_from_stack_fuel m s2 with ⟨_ | a, s3⟩
      · rw [e3] at h3
        split_ifs <;> simp [e2, e3] at h3 ⊢
        exact h3
      · split_ifs <;> simp [e2, e3]

/-- The recursion of `parse_from_stack` ends by itself on every stack. -/
theorem parse_from_stack_terminates (s : stack_t) :
    (parse_from_stack s).1 ≠ .error "recursion bound exceeded" :=
  parse_fuel_terminates _ s (Nat.lt_succ_self _)

/-! ## Machine integers and `strtol` -/

theorem wrap_long_of_range {x : Int} (h1 : LONG_MIN ≤ x) (h2 : x ≤ LONG_MAX) :
    wrap_long x = x := by
  unfold LONG_MIN at h1
  unfold LONG_MAX at h2
  unfold wrap_long
  omega

theorem to_int_of_range {x : Int} (h1 : INT_MIN ≤ x) (h2 : x ≤ INT_MAX) : to_int x = x := by
  unfold INT_MIN at h1
  unfold INT_MAX at h2
  unfold to_int
  omega

theorem isdigit_not_isspace {c : Char} (h : isdigit c = true) : isspace c = false := by
  simp only [isdigit, Bool.and_eq_true, decide_eq_true_eq] at h
  simp only [isspace, Bool.or_eq_false_iff, beq_eq_false_iff_ne, ne_eq, Bool.and_eq_false_iff,
    decide_eq_false_iff_not]
  omega

theorem strtol_digits_eq_foldl : ∀ (t : CStr) (acc : Nat), (∀ c ∈ t, isdigit c = true) →
    strtol_digits acc t = t.foldl (fun acc c => acc * 10 + (c.toNat - 48)) acc
  | [], _, _ => rfl
  | c :: cs, acc, h => by
    have hc : isdigit c = true := h c (by simp)
    simp only [strtol_digits, hc, if_true, List.foldl_cons]
    exact strtol_digits_eq_foldl cs _ (fun d hd => h d (by simp [hd]))

/-- On a string of digits `strtol` returns the decimal value, clamped to `LONG_MAX`. -/
theorem strtol_digits_pattern {t : CStr} (h : digits_pattern t = true) :
    strtol t = min LONG_MAX (decimal_value t : Int) := by
  obtain ⟨hne, hall⟩ := digits_pattern_all h
  cases t with
  | nil => exact absurd rfl hne
  | cons c cs =>
    have hc : isdigit c = true := hall c (by simp)
    have hsp : isspace c = false := isdigit_not_isspace hc
    have hm : c ≠ '-' := by rintro rfl; revert hc; decide
    have hp : c ≠ '+' := by rintro rfl; revert hc; decide
    simp only [strtol, List.dropWhile, hsp, hm, hp, if_false]
    rw [strtol_digits_eq_foldl (c :: cs) 0 hall]
    rfl

theorem strtol_of_range {t : CStr} (h : digits_pattern t = true)
    (hr : (decimal_value t : Int) ≤ LONG_MAX) : strtol t = decimal_value t := by
  rw [strtol_digits_pattern h]
  exact min_eq_right hr

/-! ## Symbol table -/

theorem lookup_table_create (st : symtab_t) (name : CStr) (v : Int) :
    lookup_table (create_symbol st name v) name = some { var_name := name, val := v } := by
  simp [create_symbol, lookup_table]

theorem lookup_table_set_val : ∀ (st : symtab_t) (name : CStr) (v : Int) (s : symbol_t),
    lookup_table st name = some s →
    lookup_table (set_val st name v) name = some { var_name := s.var_name, val := v }
  | [], _, _, _, h => by simp [lookup_table] at h
  | cur :: next, name, v, s, h => by
    by_cases hc : cur.var_name = name
    · simp only [lookup_table, hc, if_true, Option.some.injEq] at h
      subst h
      simp [set_val, lookup_table, hc]
    · simp only [lookup_table, hc, if_false] at h
      simp only [set_val, hc, if_false, lookup_table]
      exact lookup_table_set_val next name v s h

/-! ## Evaluation of the node kinds -/

theorem eval_tree_integer (token : CStr) (st : symtab_t) :
    eval_tree (tree_node_t.leaf INTEGER token) st = (.ok (strtol token), st) := by
  rw [eval_tree]

theorem eval_tree_symbol (token : CStr) (st : symtab_t) :
    eval_tree (tree_node_t.leaf SYMBOL token) st =
      match lookup_table st token with
      | none => (.error "Undefined symbol", st)
      | some s => (.ok s.val, st) := by
  rw [eval_tree]

theorem eval_tree_ternary (token alt_token : CStr) (alt_op : op_type_t)
    (a b c : tree_node_t) (st : symtab_t) :
    eval_tree (tree_node_t.interior Q_OP token a (tree_node_t.interior alt_op alt_token b c)) st
      = match eval_tree a st with
        | (.error e, st1) => (.error e, st1)
        | (.ok testv, st1) => if testv ≠ 0 then eval_tree b st1 else eval_tree c st1 := by
  rw [eval_tree]

theorem eval_tree_assign (token : CStr) (left right : tree_node_t) (st : symtab_t) :
    eval_tree (tree_node_t.interior ASSIGN_OP token left right) st
      = match lvalue_name left with
        | .error e => (.error e, st)
        | .ok name =>
          match eval_tree right st with
          | (.error e, st1) => (.error e, st1)
          | (.ok rval, st1) => (.ok rval, store_symbol st1 name rval) := by
  rw [eval_tree]

theorem eval_tree_binary {op : op_type_t} (h1 : op ≠ Q_OP) (h2 : op ≠ ASSIGN_OP)
    (token : CStr) (left right : tree_node_t) (st : symtab_t) :
    eval_tree (tree_node_t.interior op token left right) st
      = match eval_tree left st with
        | (.error e, st1) => (.error e, st1)
        | (.ok lv, st1) =>
          match eval_tree right st1 with
          | (.error e, st2) => (.error e, st2)
          | (.ok rv, st2) =>
            match apply_op op lv rv with
            | .error e => (.error e, st2)
            | .ok v => (.ok v, st2) := by
  rw [eval_tree] <;> simp_all

theorem lookup_store_symbol (st : symtab_t) (name : CStr) (rval : Int) :
    ∃ s, lookup_table (store_symbol st name rval) name = some s ∧ s.val = to_int rval := by
  unfold store_symbol
  cases h : lookup_table st name with
  | none => exact ⟨_, lookup_table_create _ _ _, rfl⟩
  | some s => exact ⟨_, lookup_table_set_val _ _ _ s h, rfl⟩

/-- The line `a b op` of two integer literals and a binary operator parses to the node with
`a` on the left and `b` on the right. -/
theorem parse_line_binary_literals {op : op_type_t} {token : CStr}
    (hop : binop_token op = some token) {a b : CStr}
    (ha : digits_pattern a = true) (hb : digits_pattern b = true) :
    parse_line (join_tokens [a, b, token]) =
      .ok (tree_node_t.interior op token (tree_node_t.leaf INTEGER a)
        (tree_node_t.leaf INTEGER b)) := by
  have hwf : WellFormed (tree_node_t.interior op token (tree_node_t.leaf INTEGER a)
      (tree_node_t.leaf INTEGER b)) :=
    WellFormed.binary _ _ _ _ hop (WellFormed.integer a ha) (WellFormed.integer b hb)
  have := parse_line_join hwf
  rw [serialise_binary hop] at this
  simpa [serialise] using this

/-- Evaluation of a binary arithmetic node on two integer literals. -/
theorem eval_binary_literals {op : op_type_t} (h1 : op ≠ Q_OP) (h2 : op ≠ ASSIGN_OP)
    (token a b : CStr) (st : symtab_t) :
    eval_tree (tree_node_t.interior op token (tree_node_t.leaf INTEGER a)
        (tree_node_t.leaf INTEGER b)) st
      = match apply_op op (strtol a) (strtol b) with
        | .error e => (.error e, st)
        | .ok v => (.ok v, st) := by
  rw [eval_tree_binary h1 h2, eval_tree_integer]
  simp only
  rw [eval_tree_integer]

theorem parse_eval_binary_literals {op : op_type_t} {token : CStr}
    (hop : binop_token op = some token) (hne : op ≠ ASSIGN_OP) {a b : CStr}
    (ha : digits_pattern a = true) (hb : digits_pattern b = true) (st : symtab_t) :
    parse_eval (join_tokens [a, b, token]) st
      = match apply_op op (strtol a) (strtol b) with
        | .error e => (.error e, st)
        | .ok v => (.ok v, st) := by
  have h1 : op ≠ Q_OP := by rintro rfl; simp [binop_token] at hop
  simp only [parse_eval, parse_line_binary_literals hop ha hb]
  exact eval_binary_literals h1 hne token a b st

/-! ## Truncated division -/

theorem tmod_neg_left (a b : Int) : (-a).tmod b = -(a.tmod b) := by
  rw [Int.tmod_def, Int.tmod_def, Int.neg_tdiv]; ring

theorem tmod_pos_divisor (a b : Int) (hb : 0 < b) :
    -b < a.tmod b ∧ a.tmod b < b ∧ (0 ≤ a → 0 ≤ a.tmod b) ∧ (a ≤ 0 → a.tmod b ≤ 0) := by
  have hnn : ∀ x : Int, 0 ≤ x → 0 ≤ x.tmod b ∧ x.tmod b < b := fun x hx =>
    ⟨Int.tmod_nonneg b hx, Int.tmod_lt_of_pos x hb⟩
  rcases le_total 0 a with ha | ha
  · obtain ⟨h1, h2⟩ := hnn a ha
    exact ⟨by omega, h2, fun _ => h1, fun h => by
      have h0 : a = 0 := le_antisymm h ha
      subst h0; simp⟩
  · obtain ⟨h1, h2⟩ := hnn (-a) (by omega)
    rw [tmod_neg_left] at h1 h2
    exact ⟨by omega, by omega, fun h => by
      have h0 : a = 0 := le_antisymm ha h
      subst h0; simp, fun _ => by omega⟩

/-- The remainder of truncated division is smaller than the divisor in absolute value and is
zero or of the sign of the dividend. -/
theorem tmod_bounds (a b : Int) (hb : b ≠ 0) :
    |a.tmod b| < |b| ∧ (0 ≤ a → 0 ≤ a.tmod b) ∧ (a ≤ 0 → a.tmod b ≤ 0) := by
  rcases lt_or_gt_of_ne hb with h | h
  · obtain ⟨h1, h2, h3, h4⟩ := tmod_pos_divisor a (-b) (by omega)
    rw [Int.tmod_neg] at h1 h2 h3 h4
    refine ⟨?_, h3, h4⟩
    rw [abs_of_neg h, abs_lt]
    exact ⟨by omega, h2⟩
  · obtain ⟨h1, h2, h3, h4⟩ := tmod_pos_divisor a b h
    refine ⟨?_, h3, h4⟩
    rw [abs_of_pos h, abs_lt]
    exact ⟨h1, h2⟩

/-- The truncated quotient of two `long` values is a `long`, except for `LONG_MIN / -1`. -/
theorem tdiv_range (lv rv : Int) (h1 : LONG_MIN ≤ lv) (h2 : lv ≤ LONG_MAX)
    (hno : ¬(lv = LONG_MIN ∧ rv = -1)) :
    LONG_MIN ≤ lv.tdiv rv ∧ lv.tdiv rv ≤ LONG_MAX := by
  unfold LONG_MIN at h1 hno ⊢
  unfold LONG_MAX at h2 ⊢
  by_cases e0 : rv = 0
  · subst e0; rw [Int.tdiv_zero]; omega
  by_cases e1 : rv = 1
  · subst e1; rw [Int.tdiv_one]; exact ⟨h1, h2⟩
  by_cases e2 : rv = -1
  · subst e2
    rw [Int.tdiv_neg, Int.tdiv_one]
    have : lv ≠ -(2 ^ 63) := fun h => hno ⟨h, rfl⟩
    omega
  have hk : 2 ≤ rv.natAbs := by omega
  have hq : (lv.tdiv rv).natAbs ≤ lv.natAbs / 2 := by
    rw [Int.natAbs_tdiv]
    exact Nat.div_le_div_left hk (by decide)
  omega

/-- The truncated quotient times the divisor does not exceed the dividend in absolute value. -/
theorem tdiv_mul_abs_le (a b : Int) : |a.tdiv b * b| ≤ |a| := by
  rw [Int.abs_eq_natAbs, Int.abs_eq_natAbs, Int.natAbs_mul, Int.natAbs_tdiv]
  exact_mod_cast Nat.div_mul_le_self a.natAbs b.natAbs

/-! ## The claims -/

/-- C1. Parse undoes postfix serialisation: for every well-formed tree `t`, `parse_line` applied
to the tokens of the postfix serialisation of `t`, joined by single spaces, succeeds and
returns exactly `t`. -/
theorem parse_line_undoes_serialise (t : tree_node_t) (h : WellFormed t) :
    parse_line (join_tokens (serialise t)) = .ok t :=
  parse_line_join h

/-- C1, at the line `10 3 - x 2 * y ?`: the ternary node has the test on the left and the Alt node
of the two branches on the right, and the operand written first is the left child. -/
theorem parse_line_undoes_serialise_witness :
    parse_line "10 3 - x 2 * y ?".toList =
      .ok (tree_node_t.interior Q_OP ['?']
        (tree_node_t.interior SUB_OP ['-'] (tree_node_t.leaf INTEGER ['1', '0'])
          (tree_node_t.leaf INTEGER ['3']))
        (tree_node_t.interior ALT_OP [':']
          (tree_node_t.interior MUL_OP ['*'] (tree_node_t.leaf SYMBOL ['x'])
            (tree_node_t.leaf INTEGER ['2']))
          (tree_node_t.leaf SYMBOL ['y']))) :=
  parse_line_undoes_serialise
    (tree_node_t.interior Q_OP ['?']
      (tree_node_t.interior SUB_OP ['-'] (tree_node_t.leaf INTEGER ['1', '0'])
        (tree_node_t.leaf INTEGER ['3']))
      (tree_node_t.interior ALT_OP [':']
        (tree_node_t.interior MUL_OP ['*'] (tree_node_t.leaf SYMBOL ['x'])
          (tree_node_t.leaf INTEGER ['2']))
        (tree_node_t.leaf SYMBOL ['y'])))
    (WellFormed.ternary _ _ _
      (WellFormed.binary SUB_OP _ _ _ rfl (WellFormed.integer _ rfl) (WellFormed.integer _ rfl))
      (WellFormed.binary MUL_OP _ _ _ rfl (WellFormed.symbol _ rfl) (WellFormed.integer _ rfl))
      (WellFormed.symbol _ rfl))

/-- C2. Parse soundness: if `parse_line` returns a tree `t`, then `t` is well-formed, the token
sequence of the line is exactly the postfix serialisation of `t`, and the parser consumed every
token, leaving the stack empty. -/
theorem parse_line_soundness (line : CStr) (t : tree_node_t) (h : parse_line line = .ok t) :
    WellFormed t ∧ strtok_all [] line = serialise t ∧
      parse_from_stack (tokenize_line line make_stack) = (.ok t, []) :=
  parse_line_sound h

/-- C2, at the line `x 5 = 2 +` with irregular spacing. -/
theorem parse_line_soundness_witness :
    WellFormed (tree_node_t.interior ADD_OP ['+']
        (tree_node_t.interior ASSIGN_OP ['='] (tree_node_t.leaf SYMBOL ['x'])
          (tree_node_t.leaf INTEGER ['5']))
        (tree_node_t.leaf INTEGER ['2'])) ∧
      strtok_all [] "  x 5  =\t2 + ".toList = [['x'], ['5'], ['='], ['2'], ['+']] :=
  have h := parse_line_soundness "  x 5  =\t2 + ".toList
    (tree_node_t.interior ADD_OP ['+']
        (tree_node_t.interior ASSIGN_OP ['='] (tree_node_t.leaf SYMBOL ['x'])
          (tree_node_t.leaf INTEGER ['5']))
        (tree_node_t.leaf INTEGER ['2'])) rfl
  ⟨h.1, h.2.1⟩

/-- C3. Operand order, end to end: for integer literals `a` and `b` within the range of `long`,
the line `a b -` evaluates to `value(a) - value(b)` (and so not to `value(b) - value(a)` when the
two differ), and when `value(b)` is not zero `a b /` evaluates to `value(a) / value(b)` and
`a b %` to `value(a) % value(b)`; the symbol table is unchanged. -/
theorem operand_order_end_to_end (a b : CStr) (st : symtab_t)
    (ha : digits_pattern a = true) (hb : digits_pattern b = true)
    (hra : (decimal_value a : Int) ≤ LONG_MAX) (hrb : (decimal_value b : Int) ≤ LONG_MAX) :
    parse_eval (join_tokens [a, b, ['-']]) st
        = (.ok ((decimal_value a : Int) - (decimal_value b : Int)), st) ∧
      (decimal_value a ≠ decimal_value b →
        parse_eval (join_tokens [a, b, ['-']]) st
          ≠ (.ok ((decimal_value b : Int) - (decimal_value a : Int)), st)) ∧
      (decimal_value b ≠ 0 →
        parse_eval (join_tokens [a, b, ['/']]) st
            = (.ok ((decimal_value a / decimal_value b : Nat) : Int), st) ∧
          parse_eval (join_tokens [a, b, ['%']]) st
            = (.ok ((decimal_value a % decimal_value b : Nat) : Int), st)) := by
  have hsub : parse_eval (join_tokens [a, b, ['-']]) st
      = (.ok ((decimal_value a : Int) - (decimal_value b : Int)), st) := by
    rw [parse_eval_binary_literals (show binop_token SUB_OP = some ['-'] from rfl) (by decide) ha hb,
      strtol_of_range ha hra, strtol_of_range hb hrb]
    simp only [apply_op]
    rw [wrap_long_of_range (by unfold LONG_MIN; unfold LONG_MAX at hrb; omega)
      (by unfold LONG_MAX at hra ⊢; omega)]
  refine ⟨hsub, ?_, ?_⟩
  · intro hne
    rw [hsub]
    intro h
    simp only [Prod.mk.injEq, Except.ok.injEq, and_true] at h
    omega
  · intro hb0
    have hq : ((decimal_value a / decimal_value b : Nat) : Int) ≤ LONG_MAX :=
      le_trans (by exact_mod_cast Nat.div_le_self _ _) hra
    have hm : ((decimal_value a % decimal_value b : Nat) : Int) ≤ LONG_MAX :=
      le_trans (by exact_mod_cast Nat.mod_le _ _) hra
    have hb0i : (decimal_value b : Int) ≠ 0 := by exact_mod_cast hb0
    have hmin : ∀ k : Nat, LONG_MIN ≤ (k : Int) := fun k =>
      le_trans (by decide) (Int.ofNat_nonneg k)
    have hnotrap : ¬((decimal_value a : Int) = LONG_MIN ∧ (decimal_value b : Int) = -1) :=
      fun h => absurd (h.2 ▸ Int.ofNat_nonneg (decimal_value b)) (by decide)
    constructor
    · rw [parse_eval_binary_literals (show binop_token DIV_OP = some ['/'] from rfl) (by decide) ha hb, strtol_of_range ha hra,
        strtol_of_range hb hrb]
      simp only [apply_op]
      rw [if_neg hb0i, if_neg hnotrap, ← Int.ofNat_tdiv, wrap_long_of_range (hmin _) hq]
    · rw [parse_eval_binary_literals (show binop_token MOD_OP = some ['%'] from rfl) (by decide) ha hb, strtol_of_range ha hra,
        strtol_of_range hb hrb]
      simp only [apply_op]
      rw [if_neg hb0i, if_neg hnotrap, ← Int.ofNat_tmod, wrap_long_of_range (hmin _) hm]

/-- C3, at the line `10 3 -`: the value is 7, not -7. -/
theorem operand_order_end_to_end_witness :
    parse_eval "10 3 -".toList [] = (.ok 7, []) ∧
      parse_eval "10 3 -".toList [] ≠ (.ok (-7), []) :=
  have h := operand_order_end_to_end "10".toList "3".toList [] rfl rfl (by decide) (by decide)
  ⟨h.1, h.2.1 (by decide)⟩

/-- C4, as stated, fails: the line `5 x =` puts the literal `5` on the left of the Assign node
and is rejected with "Invalid l-value", the table being untouched. With the symbol written
first, a literal beyond `INT_MAX` is stored through `(int)`: `x 2147483648 =` has value
2147483648 and `x` then reads -2147483648. -/
theorem assign_literal_first_rejected :
    parse_eval "5 x =".toList [] = (.error "Invalid l-value", []) ∧
      (parse_eval "x 2147483648 =".toList []).1 = .ok 2147483648 ∧
      (parse_eval "x".toList (parse_eval "x 2147483648 =".toList []).2).1
        = .ok (-2147483648) :=
  ⟨rfl, rfl, rfl⟩

/-- C4, amended: for every integer literal `n` with value at most `INT_MAX`, every symbol name
`x` and every starting symbol table, the line `x n =` evaluates to the value of `n`, and the
line `x` evaluated against the resulting table yields that value as well. -/
theorem assign_round_trip (n x : CStr) (st : symtab_t)
    (hn : digits_pattern n = true) (hx : symbol_pattern x = true)
    (hr : (decimal_value n : Int) ≤ INT_MAX) :
    ∃ st1, parse_eval (join_tokens [x, n, ['=']]) st = (.ok (decimal_value n : Int), st1) ∧
      parse_eval (join_tokens [x]) st1 = (.ok (decimal_value n : Int), st1) := by
  have hlong : (decimal_value n : Int) ≤ LONG_MAX := le_trans hr (by decide)
  have hwf : WellFormed (tree_node_t.interior ASSIGN_OP ['=']
      (tree_node_t.leaf SYMBOL x) (tree_node_t.leaf INTEGER n)) :=
    WellFormed.binary _ _ _ _ rfl (WellFormed.symbol x hx) (WellFormed.integer n hn)
  have hp := parse_line_join hwf
  rw [serialise_binary (show binop_token ASSIGN_OP = some ['='] from rfl)] at hp
  simp only [serialise, List.singleton_append, List.cons_append, List.nil_append] at hp
  have hpx := parse_line_join (WellFormed.symbol x hx)
  simp only [serialise] at hpx
  refine ⟨store_symbol st x (decimal_value n : Int), ?_, ?_⟩
  · simp only [parse_eval, hp, eval_tree_assign, lvalue_name, eval_tree_integer,
      strtol_of_range hn hlong]
    rfl
  · obtain ⟨s, hs, hv⟩ := lookup_store_symbol st x (decimal_value n : Int)
    rw [to_int_of_range (le_trans (by decide) (Int.ofNat_nonneg _)) hr] at hv
    simp only [parse_eval, hpx, eval_tree_symbol, hs, hv]

/-- C4, amended, at `x 5 =` followed by `x` on the empty table: 5 both times. -/
theorem assign_round_trip_witness :
    ∃ st1, parse_eval "x 5 =".toList [] = (.ok 5, st1) ∧
      parse_eval "x".toList st1 = (.ok 5, st1) :=
  assign_round_trip "5".toList "x".toList [] rfl rfl (by decide)

/-- C5. Ternary short-circuit: for a Ternary node with test `a` and Alt child holding `b` and
`c`, if `a` fails the node fails with that error; if `a` yields a non-zero value leaving table
`st1`, the outcome is that of `b` in `st1` and is the same whatever tree stands for `c`; if `a`
yields zero, the outcome is that of `c` in `st1` and is the same whatever tree stands for `b`. -/
theorem ternary_short_circuit (token alt_token : CStr) (a b c : tree_node_t) (st : symtab_t) :
    (∀ e st1, eval_tree a st = (.error e, st1) →
      eval_tree (tree_node_t.interior Q_OP token a
        (tree_node_t.interior ALT_OP alt_token b c)) st = (.error e, st1)) ∧
    (∀ v st1, eval_tree a st = (.ok v, st1) → v ≠ 0 →
      eval_tree (tree_node_t.interior Q_OP token a
          (tree_node_t.interior ALT_OP alt_token b c)) st = eval_tree b st1 ∧
        ∀ c2, eval_tree (tree_node_t.interior Q_OP token a
            (tree_node_t.interior ALT_OP alt_token b c2)) st
          = eval_tree (tree_node_t.interior Q_OP token a
            (tree_node_t.interior ALT_OP alt_token b c)) st) ∧
    (∀ st1, eval_tree a st = (.ok 0, st1) →
      eval_tree (tree_node_t.interior Q_OP token a
          (tree_node_t.interior ALT_OP alt_token b c)) st = eval_tree c st1 ∧
        ∀ b2, eval_tree (tree_node_t.interior Q_OP token a
            (tree_node_t.interior ALT_OP alt_token b2 c)) st
          = eval_tree (tree_node_t.interior Q_OP token a
            (tree_node_t.interior ALT_OP alt_token b c)) st) := by
  refine ⟨?_, ?_, ?_⟩
  · intro e st1 h
    rw [eval_tree_ternary, h]
  · intro v st1 h hv
    refine ⟨?_, fun c2 => ?_⟩
    · rw [eval_tree_ternary, h]
      simp [hv]
    · rw [eval_tree_ternary, eval_tree_ternary, h]
      simp [hv]
  · intro st1 h
    refine ⟨?_, fun b2 => ?_⟩
    · rw [eval_tree_ternary, h]
      simp
    · rw [eval_tree_ternary, eval_tree_ternary, h]
      simp

/-- C5, on the empty table with `z` undefined: with test `1` the node over `99` and `z` has the
outcome of `99`; with test `0` the node over `z` and `99` has the outcome of `99`; with the
failing test `z` the node fails as `z` does. -/
theorem ternary_short_circuit_witness :
    eval_tree (tree_node_t.interior Q_OP ['?'] (tree_node_t.leaf INTEGER ['1'])
        (tree_node_t.interior ALT_OP [':'] (tree_node_t.leaf INTEGER ['9', '9'])
          (tree_node_t.leaf SYMBOL ['z']))) []
      = eval_tree (tree_node_t.leaf INTEGER ['9', '9']) [] ∧
    eval_tree (tree_node_t.interior Q_OP ['?'] (tree_node_t.leaf INTEGER ['0'])
        (tree_node_t.interior ALT_OP [':'] (tree_node_t.leaf SYMBOL ['z'])
          (tree_node_t.leaf INTEGER ['9', '9']))) []
      = eval_tree (tree_node_t.leaf INTEGER ['9', '9']) [] ∧
    eval_tree (tree_node_t.interior Q_OP ['?'] (tree_node_t.leaf SYMBOL ['z'])
        (tree_node_t.interior ALT_OP [':'] (tree_node_t.leaf INTEGER ['1'])
          (tree_node_t.leaf INTEGER ['2']))) []
      = (.error "Undefined symbol", []) :=
  ⟨((ternary_short_circuit ['?'] [':'] (tree_node_t.leaf INTEGER ['1'])
      (tree_node_t.leaf INTEGER ['9', '9']) (tree_node_t.leaf SYMBOL ['z']) []).2.1
        1 [] rfl (by decide)).1,
    ((ternary_short_circuit ['?'] [':'] (tree_node_t.leaf INTEGER ['0'])
      (tree_node_t.leaf SYMBOL ['z']) (tree_node_t.leaf INTEGER ['9', '9']) []).2.2
        [] rfl).1,
    (ternary_short_circuit ['?'] [':'] (tree_node_t.leaf SYMBOL ['z'])
      (tree_node_t.leaf INTEGER ['1']) (tree_node_t.leaf INTEGER ['2']) []).1
        "Undefined symbol" [] rfl⟩

/-- C6, as stated, fails: in `1 z 99 ?` the true branch is `z`, the operand written second, so
with `z` undefined the line fails with "Undefined symbol". -/
theorem ternary_true_branch_is_second_operand :
    parse_eval "1 z 99 ?".toList [] = (.error "Undefined symbol", []) :=
  rfl

/-- C6, amended: for every integer literal `t` of non-zero value, integer literal `n` and symbol
`z`, defined or not, the line `t n z ?` evaluates without error to the value of `n` (clamped to
`LONG_MAX`, as `strtol` does) and leaves the table unchanged: `z`, the false branch, is never
evaluated. -/
theorem ternary_skips_false_branch (t n z : CStr) (st : symtab_t)
    (ht : digits_pattern t = true) (ht0 : decimal_value t ≠ 0)
    (hn : digits_pattern n = true) (hz : symbol_pattern z = true) :
    parse_eval (join_tokens [t, n, z, ['?']]) st
      = (.ok (min LONG_MAX (decimal_value n : Int)), st) := by
  have hwf := WellFormed.ternary _ _ _ (WellFormed.integer t ht) (WellFormed.integer n hn)
    (WellFormed.symbol z hz)
  have hp := parse_line_join hwf
  rw [serialise_ternary] at hp
  simp only [serialise, List.singleton_append, List.cons_append, List.nil_append] at hp
  have hv : strtol t ≠ 0 := by
    rw [strtol_digits_pattern ht]
    have h0 : (0 : Int) < (decimal_value t : Int) := by
      exact_mod_cast Nat.pos_of_ne_zero ht0
    have h1 : (0 : Int) < LONG_MAX := by decide
    exact ne_of_gt (lt_min h1 h0)
  simp only [parse_eval, hp, eval_tree_ternary, eval_tree_integer, hv, ne_eq, not_false_eq_true,
    if_true, strtol_digits_pattern hn]

/-- C6, amended, at `1 99 z ?` with `z` undefined: the value is 99. -/
theorem ternary_skips_false_branch_witness :
    lookup_table [] "z".toList = none ∧ parse_eval "1 99 z ?".toList [] = (.ok 99, []) :=
  ⟨rfl, ternary_skips_false_branch "1".toList "99".toList "z".toList [] rfl (by decide) rfl rfl⟩

/-- C7. Division and modulo by zero: when `l` evaluates successfully and `r` then evaluates to
0, the Div node and the Mod node on `l` and `r` both fail with "Division by zero" and yield no
value; and for every integer literal `n` the lines `n 0 /` and `n 0 %` parse and then fail to
evaluate with "Division by zero". -/
theorem div_mod_by_zero :
    (∀ (div_token mod_token : CStr) (l r : tree_node_t) (st st1 st2 : symtab_t) (lv : Int),
      eval_tree l st = (.ok lv, st1) → eval_tree r st1 = (.ok 0, st2) →
        eval_tree (tree_node_t.interior DIV_OP div_token l r) st
          = (.error "Division by zero", st2) ∧
        eval_tree (tree_node_t.interior MOD_OP mod_token l r) st
          = (.error "Division by zero", st2)) ∧
    (∀ (n : CStr) (st : symtab_t), digits_pattern n = true →
      (∃ root, parse_line (join_tokens [n, ['0'], ['/']]) = .ok root ∧
        eval_tree root st = (.error "Division by zero", st)) ∧
      (∃ root, parse_line (join_tokens [n, ['0'], ['%']]) = .ok root ∧
        eval_tree root st = (.error "Division by zero", st))) := by
  constructor
  · intro div_token mod_token l r st st1 st2 lv hl hr
    constructor
    · rw [eval_tree_binary (by decide) (by decide), hl]
      simp only
      rw [hr]
      simp [apply_op]
    · rw [eval_tree_binary (by decide) (by decide), hl]
      simp only
      rw [hr]
      simp [apply_op]
  · intro n st hn
    have hz : digits_pattern ['0'] = true := by decide
    have h0 : strtol ['0'] = 0 := by decide
    constructor
    · refine ⟨_, parse_line_binary_literals
        (show binop_token DIV_OP = some ['/'] from rfl) hn hz, ?_⟩
      rw [eval_binary_literals (by decide) (by decide), h0]
      simp [apply_op]
    · refine ⟨_, parse_line_binary_literals
        (show binop_token MOD_OP = some ['%'] from rfl) hn hz, ?_⟩
      rw [eval_binary_literals (by decide) (by decide), h0]
      simp [apply_op]

/-- C7, at the lines `5 0 /` and `5 0 %` on the empty table, and at the nodes `5 / (3 - 3)` and
`5 % (3 - 3)` whose right operand evaluates to 0. -/
theorem div_mod_by_zero_witness :
    ((∃ root, parse_line "5 0 /".toList = .ok root ∧
        eval_tree root [] = (.error "Division by zero", [])) ∧
      (∃ root, parse_line "5 0 %".toList = .ok root ∧
        eval_tree root [] = (.error "Division by zero", []))) ∧
    (eval_tree (tree_node_t.interior DIV_OP ['/'] (tree_node_t.leaf INTEGER ['5'])
        (tree_node_t.interior SUB_OP ['-'] (tree_node_t.leaf INTEGER ['3'])
          (tree_node_t.leaf INTEGER ['3']))) [] = (.error "Division by zero", []) ∧
      eval_tree (tree_node_t.interior MOD_OP ['%'] (tree_node_t.leaf INTEGER ['5'])
        (tree_node_t.interior SUB_OP ['-'] (tree_node_t.leaf INTEGER ['3'])
          (tree_node_t.leaf INTEGER ['3']))) [] = (.error "Division by zero", [])) :=
  ⟨div_mod_by_zero.2 "5".toList [] rfl,
    div_mod_by_zero.1 ['/'] ['%'] (tree_node_t.leaf INTEGER ['5'])
      (tree_node_t.interior SUB_OP ['-'] (tree_node_t.leaf INTEGER ['3'])
        (tree_node_t.leaf INTEGER ['3'])) [] [] [] 5 rfl rfl⟩

/-- C8. Division truncates toward zero and modulo follows it: when the operands evaluate to the
`long` values `lv` and `rv` with `rv` non-zero and the quotient representable (not
`LONG_MIN / -1`), the Div node yields `q` and the Mod node yields `m` with `lv = q * rv + m`,
`|m| < |rv|`, `m` zero or of the sign of `lv`, and `|q * rv| ≤ |lv|`. -/
theorem div_truncates_mod_follows (div_token mod_token : CStr) (l r : tree_node_t)
    (st st1 st2 : symtab_t) (lv rv : Int)
    (hl : eval_tree l st = (.ok lv, st1)) (hr : eval_tree r st1 = (.ok rv, st2))
    (hrv : rv ≠ 0) (hlv1 : LONG_MIN ≤ lv) (hlv2 : lv ≤ LONG_MAX)
    (hrv1 : LONG_MIN ≤ rv) (hrv2 : rv ≤ LONG_MAX) (hrep : ¬(lv = LONG_MIN ∧ rv = -1)) :
    ∃ q m : Int,
      eval_tree (tree_node_t.interior DIV_OP div_token l r) st = (.ok q, st2) ∧
      eval_tree (tree_node_t.interior MOD_OP mod_token l r) st = (.ok m, st2) ∧
      lv = q * rv + m ∧ |m| < |rv| ∧ (m = 0 ∨ (0 < m ∧ 0 < lv) ∨ (m < 0 ∧ lv < 0)) ∧
      |q * rv| ≤ |lv| := by
  obtain ⟨hq1, hq2⟩ := tdiv_range lv rv hlv1 hlv2 hrep
  obtain ⟨hm, hpos, hneg⟩ := tmod_bounds lv rv hrv
  have hmr : LONG_MIN ≤ lv.tmod rv ∧ lv.tmod rv ≤ LONG_MAX := by
    have h1 := abs_lt.1 hm
    have h2 : |rv| ≤ 2 ^ 63 := by
      unfold LONG_MIN at hrv1
      unfold LONG_MAX at hrv2
      exact abs_le.2 ⟨by omega, by omega⟩
    unfold LONG_MIN LONG_MAX
    omega
  refine ⟨lv.tdiv rv, lv.tmod rv, ?_, ?_, ?_, hm, ?_, tdiv_mul_abs_le lv rv⟩
  · rw [eval_tree_binary (by decide) (by decide), hl]
    simp only
    rw [hr]
    simp only [apply_op]
    rw [if_neg hrv, if_neg hrep, wrap_long_of_range hq1 hq2]
  · rw [eval_tree_binary (by decide) (by decide), hl]
    simp only
    rw [hr]
    simp only [apply_op]
    rw [if_neg hrv, if_neg hrep, wrap_long_of_range hmr.1 hmr.2]
  · have := Int.tdiv_add_tmod lv rv
    rw [mul_comm] at this
    exact this.symm
  · rcases lt_trichotomy (lv.tmod rv) 0 with h | h | h
    · right; right
      refine ⟨h, ?_⟩
      by_contra hc
      have := hpos (by omega)
      omega
    · exact Or.inl h
    · right; left
      refine ⟨h, ?_⟩
      by_contra hc
      have := hneg (by omega)
      omega

/-- C8, at `-7 / 2` and `-7 % 2`, the dividend being the value of `0 7 -`: the quotient is -3
and the remainder -1. -/
theorem div_truncates_mod_follows_witness :
    (∃ q m : Int,
      eval_tree (tree_node_t.interior DIV_OP ['/']
        (tree_node_t.interior SUB_OP ['-'] (tree_node_t.leaf INTEGER ['0'])
          (tree_node_t.leaf INTEGER ['7'])) (tree_node_t.leaf INTEGER ['2'])) [] = (.ok q, []) ∧
      eval_tree (tree_node_t.interior MOD_OP ['%']
        (tree_node_t.interior SUB_OP ['-'] (tree_node_t.leaf INTEGER ['0'])
          (tree_node_t.leaf INTEGER ['7'])) (tree_node_t.leaf INTEGER ['2'])) [] = (.ok m, []) ∧
      (-7 : Int) = q * 2 + m ∧ |m| < |(2 : Int)| ∧
      (m = 0 ∨ (0 < m ∧ (0 : Int) < -7) ∨ (m < 0 ∧ (-7 : Int) < 0)) ∧
      |q * 2| ≤ |(-7 : Int)|) ∧
    parse_eval "0 7 - 2 /".toList [] = (.ok (-3), []) ∧
    parse_eval "0 7 - 2 %".toList [] = (.ok (-1), []) :=
  ⟨div_truncates_mod_follows ['/'] ['%']
      (tree_node_t.interior SUB_OP ['-'] (tree_node_t.leaf INTEGER ['0'])
        (tree_node_t.leaf INTEGER ['7'])) (tree_node_t.leaf INTEGER ['2']) [] [] []
      (-7) 2 rfl rfl (by decide) (by decide) (by decide) (by decide) (by decide) (by decide),
    rfl, rfl⟩

/-- C9. Too few tokens: for every well-formed tree `t`, a line whose token sequence is a proper
suffix of the serialisation of `t` (the empty and the blank line included) fails with the
not-enough-tokens message; so does the line that joins such a suffix by single spaces. -/
theorem too_few_tokens (t : tree_node_t) (h : WellFormed t) (front : List CStr)
    (hfront : front ≠ []) :
    (∀ line : CStr, front ++ strtok_all [] line = serialise t →
      parse_line line = .error "Invalid expression, not enough tokens") ∧
    (∀ rear : List CStr, front ++ rear = serialise t →
      parse_line (join_tokens rear) = .error "Invalid expression, not enough tokens") := by
  have h1 : ∀ line : CStr, front ++ strtok_all [] line = serialise t →
      parse_line line = .error "Invalid expression, not enough tokens" :=
    fun line hl => parse_line_short h hfront hl
  refine ⟨h1, fun rear hr => h1 _ ?_⟩
  rw [strtok_all_join rear (fun tok htok => serialise_tokens_clean h tok
    (by rw [← hr]; exact List.mem_append_right _ htok))]
  exact hr

/-- C9, at the line `+` alone, the last token of `3 4 +`, and at the empty and the blank line. -/
theorem too_few_tokens_witness :
    parse_line "+".toList = .error "Invalid expression, not enough tokens" ∧
      parse_line [] = .error "Invalid expression, not enough tokens" ∧
      parse_line "  \t ".toList = .error "Invalid expression, not enough tokens" :=
  have hwf : WellFormed (tree_node_t.interior ADD_OP ['+'] (tree_node_t.leaf INTEGER ['3'])
      (tree_node_t.leaf INTEGER ['4'])) :=
    WellFormed.binary ADD_OP _ _ _ rfl (WellFormed.integer _ rfl) (WellFormed.integer _ rfl)
  ⟨(too_few_tokens _ hwf [['3'], ['4']] (by decide)).1 "+".toList rfl,
    (too_few_tokens _ hwf [['3'], ['4'], ['+']] (by decide)).1 [] rfl,
    (too_few_tokens _ hwf [['3'], ['4'], ['+']] (by decide)).1 "  \t ".toList rfl⟩

/-- C10. Too many tokens: for every well-formed tree `t` and every non-empty token sequence `q`,
legal or not, a line whose token sequence is `q` followed by the serialisation of `t` fails with
the too-many-tokens message; so does the line that joins these tokens by single spaces. -/
theorem too_many_tokens (t : tree_node_t) (h : WellFormed t) (q : List CStr) (hq : q ≠ []) :
    (∀ line : CStr, strtok_all [] line = q ++ serialise t →
      parse_line line = .error "Invalid expression, too many tokens") ∧
    ((∀ tok ∈ q, tok ≠ [] ∧ ∀ c ∈ tok, is_delim c = false) →
      parse_line (join_tokens (q ++ serialise t))
        = .error "Invalid expression, too many tokens") := by
  have h1 : ∀ line : CStr, strtok_all [] line = q ++ serialise t →
      parse_line line = .error "Invalid expression, too many tokens" :=
    fun line hl => parse_line_long h hq hl
  refine ⟨h1, fun hclean => h1 _ (strtok_all_join _ ?_)⟩
  intro tok htok
  rcases List.mem_append.1 htok with h2 | h2
  · exact hclean tok h2
  · exact serialise_tokens_clean h tok h2

/-- C10, at the line `3 4`, and at `@ 3 4 +` whose extra token is illegal. -/
theorem too_many_tokens_witness :
    parse_line "3 4".toList = .error "Invalid expression, too many tokens" ∧
      parse_line "@ 3 4 +".toList = .error "Invalid expression, too many tokens" :=
  ⟨(too_many_tokens (tree_node_t.leaf INTEGER ['4']) (WellFormed.integer _ rfl) [['3']]
      (by decide)).1 "3 4".toList rfl,
    (too_many_tokens (tree_node_t.interior ADD_OP ['+'] (tree_node_t.leaf INTEGER ['3'])
        (tree_node_t.leaf INTEGER ['4']))
      (WellFormed.binary ADD_OP _ _ _ rfl (WellFormed.integer _ rfl) (WellFormed.integer _ rfl))
      [['@']] (by decide)).2 (by decide)⟩

/-! ## Illegal tokens -/

/-- A popped token that is neither operator, integer nor symbol stops the parser with the
illegal-token message. -/
theorem parse_fuel_illegal {x : CStr} (h1 : is_op x = false) (h2 : is_integer_token x = false)
    (h3 : is_symbol_token x = false) (fuel : Nat) (tokstack : stack_t) :
    parse_from_stack_fuel (fuel + 1) (x :: tokstack) = (.error "Illegal token", tokstack) := by
  simp [parse_from_stack_fuel, h1, h2, h3]

/-- Parsing a stack that holds a front part `p` of `serialise t` followed by `tail`, on top of
a stack `ext` on which the parser fails with `e`: either that failure is reached, or the whole
of `t` is there and is returned. -/
theorem parse_fuel_front_ext {t : tree_node_t} (hwf : WellFormed t) (e : String) (ext : stack_t)
    (hshort : ∀ (n : Nat) (p q : stack_t), p ++ q = (serialise t).reverse → q ≠ [] →
      p.length < n → ∃ rest, parse_from_stack_fuel n (p ++ ext) = (.error e, rest))
    (n : Nat) (p q tail : stack_t) (h : p ++ q = (serialise t).reverse ++ tail)
    (hn : p.length < n) :
    (∃ rest, parse_from_stack_fuel n (p ++ ext) = (.error e, rest)) ∨
      (∃ p2, p = (serialise t).reverse ++ p2 ∧ p2 ++ q = tail ∧
        parse_from_stack_fuel n (p ++ ext) = (.ok t, p2 ++ ext)) := by
  rcases List.append_eq_append_iff.1 h with ⟨a1, h1, h2⟩ | ⟨c1, h1, h2⟩
  · cases a1 with
    | nil =>
      right
      rw [List.append_nil] at h1
      refine ⟨[], by simpa using h1.symm, by simpa using h2, ?_⟩
      have hlen : p.length = (serialise t).length := by rw [← h1]; simp
      have := parse_fuel_serialise hwf n ext (by omega)
      rw [← h1]
      simpa using this
    | cons x xs => exact Or.inl (hshort n p (x :: xs) h1.symm (by simp) hn)
  · right
    refine ⟨c1, h1, h2.symm, ?_⟩
    have hlen : p.length = (serialise t).length + c1.length := by rw [h1]; simp
    have := parse_fuel_serialise hwf n (c1 ++ ext) (by omega)
    rw [h1, List.append_assoc]
    exact this

/-- When the tokens of a proper suffix of the serialisation of a well-formed tree lie on top of
a stack `ext` on which the parser fails with `e`, the parser pops them all and fails with `e`. -/
theorem parse_fuel_short_ext {t : tree_node_t} (hwf : WellFormed t) (e : String)
    (ext : stack_t)
    (hext : ∀ k : Nat, ∃ rest, parse_from_stack_fuel (k + 1) ext = (.error e, rest)) :
    ∀ (n : Nat) (p q : stack_t), p ++ q = (serialise t).reverse → q ≠ [] →
      p.length < n → ∃ rest, parse_from_stack_fuel n (p ++ ext) = (.error e, rest) := by
  induction hwf with
  | integer token hd =>
    intro n p q h hq hn
    cases p with
    | nil =>
      cases n with
      | zero => omega
      | succ m => simpa using hext m
    | cons x xs =>
      have := congrArg List.length h
      simp [serialise] at this
      cases q with
      | nil => exact absurd rfl hq
      | cons y ys => simp at this
  | symbol token hs =>
    intro n p q h hq hn
    cases p with
    | nil =>
      cases n with
      | zero => omega
      | succ m => simpa using hext m
    | cons x xs =>
      have := congrArg List.length h
      simp [serialise] at this
      cases q with
      | nil => exact absurd rfl hq
      | cons y ys => simp at this
  | binary op token left right hop wl wr ihl ihr =>
    intro n p q h hq hn
    cases n with
    | zero => omega
    | succ m =>
      cases p with
      | nil => simpa using hext m
      | cons x xs =>
        rw [serialise_binary hop] at h
        simp only [List.reverse_append, List.reverse_cons, List.reverse_nil, List.nil_append,
          List.singleton_append, List.cons_append, List.cons.injEq] at h
        obtain ⟨rfl, h⟩ := h
        simp only [List.length_cons] at hn
        rw [List.cons_append, parse_fuel_binary hop]
        rcases parse_fuel_front_ext wr e ext ihr m xs q _ h (by omega) with
          ⟨rest, e1⟩ | ⟨p2, e0, e2, e1⟩
        · exact ⟨rest, by rw [e1]⟩
        · obtain ⟨rest, e3⟩ := ihl m p2 q e2 hq (by
            have : xs.length = (serialise right).length + p2.length := by rw [e0]; simp
            omega)
          exact ⟨rest, by rw [e1]; simp only; rw [e3]⟩
  | ternary a b c wa wb wc iha ihb ihc =>
    intro n p q h hq hn
    cases n with
    | zero => omega
    | succ m =>
      cases p with
      | nil => simpa using hext m
      | cons x xs =>
        rw [serialise_ternary] at h
        simp only [List.reverse_append, List.reverse_cons, List.reverse_nil, List.nil_append,
          List.singleton_append, List.cons_append, List.cons.injEq, List.append_assoc] at h
        obtain ⟨rfl, h⟩ := h
        simp only [List.length_cons] at hn
        rw [List.cons_append, parse_fuel_ternary]
        rcases parse_fuel_front_ext wc e ext ihc m xs q _ h (by omega) with
          ⟨rest, e1⟩ | ⟨p2, e0, e2, e1⟩
        · exact ⟨rest, by rw [e1]⟩
        have hp2 : p2.length ≤ xs.length := by rw [e0]; simp
        rcases parse_fuel_front_ext wb e ext ihb m p2 q _ e2 (by omega) with
          ⟨rest, e3⟩ | ⟨p3, e4, e5, e3⟩
        · exact ⟨rest, by rw [e1]; simp only; rw [e3]⟩
        have hp3 : p3.length ≤ p2.length := by rw [e4]; simp
        obtain ⟨rest, e6⟩ := iha m p3 q e5 hq (by omega)
        exact ⟨rest, by rw [e1]; simp only; rw [e3]; simp only; rw [e6]⟩

/-- A line whose tokens are any sequence, then an illegal token, then a proper suffix of the
serialisation of a well-formed tree, fails with the illegal-token message. -/
theorem parse_line_illegal {t : tree_node_t} (hwf : WellFormed t) {front rear : List CStr}
    (hfront : front ≠ []) (hsplit : front ++ rear = serialise t) {x : CStr}
    (h1 : is_op x = false) (h2 : is_integer_token x = false) (h3 : is_symbol_token x = false)
    {p : List CStr} {line : CStr} (hl : strtok_all [] line = p ++ x :: rear) :
    parse_line line = .error "Illegal token" := by
  have hrev : rear.reverse ++ front.reverse = (serialise t).reverse := by
    rw [← hsplit]; simp
  have hstack : (strtok_all [] line).reverse = rear.reverse ++ x :: p.reverse := by
    rw [hl]; simp
  obtain ⟨rest, hp⟩ := parse_fuel_short_ext hwf "Illegal token" (x :: p.reverse)
    (fun k => ⟨_, parse_fuel_illegal h1 h2 h3 k _⟩)
    ((rear.reverse ++ x :: p.reverse).length + 1) rear.reverse front.reverse hrev
    (by simpa using hfront) (by simp; omega)
  simp only [parse_line, tokenize_line_eq, parse_from_stack, hstack, hp]
  simp [empty_stack]

/-! ## Token classes as patterns -/

theorem isdigit_iff (c : Char) : isdigit c = true ↔ in_range '0' '9' c := by
  simp only [isdigit, Bool.and_eq_true, decide_eq_true_eq, in_range]
  exact Iff.rfl

theorem isalpha_iff (c : Char) :
    isalpha c = true ↔ in_range 'A' 'Z' c ∨ in_range 'a' 'z' c := by
  simp only [isalpha, Bool.or_eq_true, Bool.and_eq_true, decide_eq_true_eq, in_range]
  exact Iff.rfl

theorem isalnum_iff (c : Char) :
    isalnum c = true ↔ in_range 'A' 'Z' c ∨ in_range 'a' 'z' c ∨ in_range '0' '9' c := by
  simp only [isalnum, Bool.or_eq_true, isalpha_iff, isdigit_iff, or_assoc]

theorem is_op_iff (t : CStr) :
    is_op t = true ↔ ∃ c, t = [c] ∧ c ∈ ['+', '-', '*', '/', '%', '=', '?'] := by
  constructor
  · intro h
    obtain ⟨c, rfl, hc⟩ := is_op_singleton h
    exact ⟨c, rfl, by simpa using hc⟩
  · rintro ⟨c, rfl, hc⟩
    simp only [List.mem_cons, List.mem_singleton, List.not_mem_nil, or_false] at hc
    rcases hc with rfl | rfl | rfl | rfl | rfl | rfl | rfl <;> decide

theorem is_integer_token_iff (t : CStr) :
    is_integer_token t = true ↔ t ≠ [] ∧ ∀ c ∈ t, in_range '0' '9' c := by
  rw [is_integer_token_eq]
  constructor
  · intro h
    obtain ⟨h1, h2⟩ := digits_pattern_all h
    exact ⟨h1, fun c hc => (isdigit_iff c).1 (h2 c hc)⟩
  · rintro ⟨h1, h2⟩
    cases t with
    | nil => exact absurd rfl h1
    | cons c cs =>
      simp only [digits_pattern, List.isEmpty_cons, Bool.not_false, Bool.true_and,
        List.all_eq_true]
      exact fun d hd => (isdigit_iff d).2 (h2 d hd)

theorem is_symbol_token_iff (t : CStr) :
    is_symbol_token t = true ↔
      ∃ c cs, t = c :: cs ∧ (in_range 'A' 'Z' c ∨ in_range 'a' 'z' c) ∧
        ∀ d ∈ cs, in_range 'A' 'Z' d ∨ in_range 'a' 'z' d ∨ in_range '0' '9' d := by
  constructor
  · intro h
    rw [is_symbol_token_eq] at h
    obtain ⟨c, cs, rfl, hc, hcs⟩ := symbol_pattern_cons h
    exact ⟨c, cs, rfl, (isalpha_iff c).1 hc, fun d hd => (isalnum_iff d).1 (hcs d hd)⟩
  · rintro ⟨c, cs, rfl, hc, hcs⟩
    simp only [is_symbol_token, Bool.and_eq_true, List.all_eq_true]
    exact ⟨(isalpha_iff c).2 hc, fun d hd => (isalnum_iff d).2 (hcs d hd)⟩

theorem integer_not_op {t : CStr} (h : is_integer_token t = true) : is_op t = false :=
  digits_not_op (by rw [← is_integer_token_eq]; exact h)

/-! ## Infix printer -/

theorem print_infix_eq_render (t : tree_node_t) : print_infix t = render t := by
  induction t with
  | null => rfl
  | leaf _ _ => rfl
  | interior op token left right ihl ihr => simp [ print_infix, render, ihl, ihr]

theorem isdigit_plain {c : Char} (h : isdigit c = true) :
    isspace c = false ∧ c ≠ '(' ∧ c ≠ ')' :=
  ⟨isdigit_not_isspace h, by rintro rfl; revert h; decide, by rintro rfl; revert h; decide⟩

theorem isalpha_plain {c : Char} (h : isalpha c = true) :
    isspace c = false ∧ c ≠ '(' ∧ c ≠ ')' := by
  refine ⟨?_, by rintro rfl; revert h; decide, by rintro rfl; revert h; decide⟩
  simp only [isalpha, Bool.or_eq_true, Bool.and_eq_true, decide_eq_true_eq] at h
  simp only [isspace, Bool.or_eq_false_iff, beq_eq_false_iff_ne, ne_eq, Bool.and_eq_false_iff,
    decide_eq_false_iff_not]
  omega

theorem isalnum_plain {c : Char} (h : isalnum c = true) :
    isspace c = false ∧ c ≠ '(' ∧ c ≠ ')' := by
  simp only [isalnum, Bool.or_eq_true] at h
  rcases h with h | h
  · exact isalpha_plain h
  · exact isdigit_plain h

/-- A text whose characters are neither white space nor parentheses. -/
theorem plain_text_counts {text : CStr}
    (h : ∀ c ∈ text, isspace c = false ∧ c ≠ '(' ∧ c ≠ ')') :
    (∀ c ∈ text, isspace c = false) ∧ text.count '(' = 0 ∧ text.count ')' = 0 := by
  refine ⟨fun c hc => (h c hc).1, ?_, ?_⟩
  · exact List.count_eq_zero.2 (fun hm => (h _ hm).2.1 rfl)
  · exact List.count_eq_zero.2 (fun hm => (h _ hm).2.2 rfl)

theorem binop_token_plain {op : op_type_t} {token : CStr} (h : binop_token op = some token) :
    (∀ c ∈ token, isspace c = false) ∧ token.count '(' = 0 ∧ token.count ')' = 0 := by
  cases op <;> simp [binop_token] at h <;> subst h <;> decide

/-- The text printed for a well-formed tree has no white space and one pair of parentheses for
each interior node. -/
theorem print_infix_well_formed {t : tree_node_t} (h : WellFormed t) :
    (∀ c ∈ print_infix t, isspace c = false) ∧
      ( print_infix t).count '(' = interior_count t ∧
      ( print_infix t).count ')' = interior_count t := by
  induction h with
  | integer token hd =>
    obtain ⟨-, hall⟩ := digits_pattern_all hd
    simpa [ print_infix, interior_count] using
      plain_text_counts (fun c hc => isdigit_plain (hall c hc))
  | symbol token hs =>
    obtain ⟨c, cs, rfl, hc, hcs⟩ := symbol_pattern_cons hs
    have := @plain_text_counts (c :: cs) (fun d hd => by
      rcases List.mem_cons.1 hd with rfl | hd
      · exact isalpha_plain hc
      · exact isalnum_plain (hcs d hd))
    simpa [ print_infix, interior_count] using this
  | binary op token left right hop _ _ ihl ihr =>
    obtain ⟨t1, t2, t3⟩ := binop_token_plain hop
    obtain ⟨l1, l2, l3⟩ := ihl
    obtain ⟨r1, r2, r3⟩ := ihr
    have hsp1 : isspace '(' = false := by decide
    have hsp2 : isspace ')' = false := by decide
    refine ⟨?_, ?_, ?_⟩
    · intro c hc
      simp only [ print_infix, List.mem_append, List.mem_singleton] at hc
      rcases hc with rfl | hc | hc | hc | rfl
      · exact hsp1
      · exact l1 c hc
      · exact t1 c hc
      · exact r1 c hc
      · exact hsp2
    · simp only [ print_infix, interior_count, List.count_append, l2, t2, r2]
      simp
      omega
    · simp only [ print_infix, interior_count, List.count_append, l3, t3, r3]
      simp
      omega
  | ternary a b c _ _ _ iha ihb ihc =>
    obtain ⟨a1, a2, a3⟩ := iha
    obtain ⟨b1, b2, b3⟩ := ihb
    obtain ⟨c1, c2, c3⟩ := ihc
    have hsp1 : isspace '(' = false := by decide
    have hsp2 : isspace ')' = false := by decide
    have hsp3 : isspace '?' = false := by decide
    have hsp4 : isspace ':' = false := by decide
    refine ⟨?_, ?_, ?_⟩
    · intro d hd
      simp only [ print_infix, List.mem_append, List.mem_singleton] at hd
      rcases hd with rfl | hd | rfl | (rfl | hd | rfl | hd | rfl) | rfl
      · exact hsp1
      · exact a1 d hd
      · exact hsp3
      · exact hsp1
      · exact b1 d hd
      · exact hsp4
      · exact c1 d hd
      · exact hsp2
      · exact hsp2
    · simp only [ print_infix, interior_count, List.count_append, a2, b2, c2]
      simp
      omega
    · simp only [ print_infix, interior_count, List.count_append, a3, b3, c3]
      simp
      omega

/-! ## Stores into the symbol table -/

theorem lookup_table_set_val_other : ∀ (st : symtab_t) (x name : CStr) (v : Int),
    name ≠ x → lookup_table (set_val st x v) name = lookup_table st name
  | [], _, _, _, _ => rfl
  | cur :: next, x, name, v, h => by
    by_cases hc : cur.var_name = x
    · have hn : ¬ cur.var_name = name := fun e => h (e.symm.trans hc)
      simp [set_val, lookup_table, hc, hn, h.symm]
    · simp only [set_val, hc, if_false, lookup_table]
      rw [lookup_table_set_val_other next x name v h]

theorem lookup_store_symbol_other (st : symtab_t) (x name : CStr) (v : Int) (h : name ≠ x) :
    lookup_table (store_symbol st x v) name = lookup_table st name := by
  unfold store_symbol
  cases lookup_table st x with
  | none => simp [create_symbol, lookup_table, h.symm]
  | some s => exact lookup_table_set_val_other st x name _ h

theorem lookup_store_symbol_defined (st : symtab_t) (x name : CStr) (v : Int)
    (h : lookup_table st name ≠ none) : lookup_table (store_symbol st x v) name ≠ none := by
  by_cases e : name = x
  · subst e
    obtain ⟨s, hs, -⟩ := lookup_store_symbol st name v
    rw [hs]; simp
  · rw [lookup_store_symbol_other st x name v e]; exact h

theorem store_all_append (st : symtab_t) (ws1 ws2 : List (CStr × Int)) :
    store_all st (ws1 ++ ws2) = store_all (store_all st ws1) ws2 := by
  simp [store_all, List.foldl_append]

theorem lookup_store_all_other (name : CStr) : ∀ (ws : List (CStr × Int)) (st : symtab_t),
    (∀ w ∈ ws, w.1 ≠ name) → lookup_table (store_all st ws) name = lookup_table st name
  | [], _, _ => rfl
  | w :: ws, st, h => by
    have h1 : name ≠ w.1 := fun e => h w (by simp) e.symm
    have := lookup_store_all_other name ws (store_symbol st w.1 w.2)
      (fun u hu => h u (by simp [hu]))
    simp only [store_all, List.foldl_cons] at this ⊢
    rw [this, lookup_store_symbol_other st w.1 name w.2 h1]

theorem lookup_store_all_defined (name : CStr) : ∀ (ws : List (CStr × Int)) (st : symtab_t),
    lookup_table st name ≠ none → lookup_table (store_all st ws) name ≠ none
  | [], _, h => h
  | w :: ws, st, h => by
    have := lookup_store_all_defined name ws (store_symbol st w.1 w.2)
      (lookup_store_symbol_defined st w.1 name w.2 h)
    simpa [store_all] using this

/-! ## Induction on trees that reaches the grandchildren -/

/-- Induction on trees in which the step for an interior node may also use the property of the
children of its right child, the shape of the recursion of `eval_tree` on a Ternary node. -/
theorem tree_induction_alt (P : tree_node_t → Prop) (hnull : P tree_node_t.null)
    (hleaf : ∀ exp_type token, P (tree_node_t.leaf exp_type token))
    (hint : ∀ op token left right, P left → P right →
      (∀ op2 token2 a b, right = tree_node_t.interior op2 token2 a b → P a ∧ P b) →
      P (tree_node_t.interior op token left right)) :
    ∀ t, P t := by
  have key : ∀ t, P t ∧
      (∀ op2 token2 a b, t = tree_node_t.interior op2 token2 a b → P a ∧ P b) := by
    intro t
    induction t with
    | null => exact ⟨hnull, fun _ _ _ _ h => by cases h⟩
    | leaf exp_type token => exact ⟨hleaf exp_type token, fun _ _ _ _ h => by cases h⟩
    | interior op token left right ihl ihr =>
      refine ⟨hint op token left right ihl.1 ihr.1 ihr.2, ?_⟩
      intro op2 token2 a b h
      cases h
      exact ⟨ihl.1, ihr.1⟩
  exact fun t => (key t).1

/-! ## Evaluation and the symbol table -/

theorem eval_tree_null (st : symtab_t) :
    eval_tree tree_node_t.null st = (.error "Unknown node type", st) := by
  rw [eval_tree]

theorem eval_tree_ternary_null (token : CStr) (a : tree_node_t) (st : symtab_t) :
    eval_tree (tree_node_t.interior Q_OP token a tree_node_t.null) st
      = match eval_tree a st with
        | (.error e, st1) => (.error e, st1)
        | (.ok _, st1) => (.error "Unknown node type", st1) := by
  rw [eval_tree]
  intro op token2 al ar h
  cases h

theorem eval_tree_ternary_leaf (token : CStr) (a : tree_node_t) (exp_type : exp_type_t)
    (token2 : CStr) (st : symtab_t) :
    eval_tree (tree_node_t.interior Q_OP token a (tree_node_t.leaf exp_type token2)) st
      = match eval_tree a st with
        | (.error e, st1) => (.error e, st1)
        | (.ok _, st1) => (.error "Unknown node type", st1) := by
  rw [eval_tree]
  intro op token3 al ar h
  cases h

theorem lvalue_name_ok {left : tree_node_t} {name : CStr} (h : lvalue_name left = .ok name) :
    left = tree_node_t.leaf SYMBOL name := by
  cases left with
  | null => simp [lvalue_name] at h
  | interior op token l r => simp [lvalue_name] at h
  | leaf exp_type token =>
    cases exp_type with
    | INTEGER => simp [lvalue_name] at h
    | SYMBOL =>
      simp only [lvalue_name, ne_eq, not_true_eq_false, if_false, Except.ok.injEq] at h
      rw [h]

theorem lvalue_name_error {left : tree_node_t} {e : String}
    (h : lvalue_name left = .error e) : e = "Invalid l-value" ∨ e = "Missing l-value" := by
  cases left with
  | null => simp only [lvalue_name, Except.error.injEq] at h; exact Or.inr h.symm
  | interior op token l r =>
    simp only [lvalue_name, Except.error.injEq] at h; exact Or.inr h.symm
  | leaf exp_type token =>
    cases exp_type with
    | INTEGER => simp [lvalue_name] at h; exact Or.inl h.symm
    | SYMBOL => simp [lvalue_name] at h

theorem apply_op_arith_error {op : op_type_t} (hop : is_arith op = true) {lv rv : Int}
    {e : String} (h : apply_op op lv rv = .error e) :
    e = "Division by zero" ∨ e = SIGFPE_TRAP := by
  cases op <;> simp [is_arith] at hop <;> simp only [apply_op] at h
  · cases h
  · cases h
  · cases h
  · by_cases h0 : rv = 0
    · rw [if_pos h0] at h
      cases h
      exact Or.inl rfl
    · rw [if_neg h0] at h
      by_cases h1 : lv = LONG_MIN ∧ rv = -1
      · rw [if_pos h1] at h
        cases h
        exact Or.inr rfl
      · rw [if_neg h1] at h
        cases h
  · by_cases h0 : rv = 0
    · rw [if_pos h0] at h
      cases h
      exact Or.inl rfl
    · rw [if_neg h0] at h
      by_cases h1 : lv = LONG_MIN ∧ rv = -1
      · rw [if_pos h1] at h
        cases h
        exact Or.inr rfl
      · rw [if_neg h1] at h
        cases h

/-- The table evaluation leaves behind is the starting table after a sequence of stores, each
to a name that is the left operand of an Assign node of the tree. -/
theorem eval_tree_stores : ∀ (t : tree_node_t) (st : symtab_t),
    ∃ ws : List (CStr × Int), (∀ w ∈ ws, w.1 ∈ assigned_names t) ∧
      (eval_tree t st).2 = store_all st ws := by
  intro t
  induction t using tree_induction_alt with
  | hnull => intro st; exact ⟨[], by simp, by rw [eval_tree_null]; rfl⟩
  | hleaf exp_type token =>
    intro st
    refine ⟨[], by simp, ?_⟩
    cases exp_type with
    | INTEGER => rw [eval_tree_integer]; rfl
    | SYMBOL =>
      rw [eval_tree_symbol]
      cases lookup_table st token <;> rfl
  | hint op token left right ihl ihr ihalt =>
    intro st
    by_cases hq : op = Q_OP
    · subst hq
      obtain ⟨ws1, hw1, e1⟩ := ihl st
      have hsubl : ∀ w ∈ ws1, w.1 ∈ assigned_names
          (tree_node_t.interior Q_OP token left right) := fun w hw => by
        simp only [assigned_names]
        simp [hw1 w hw]
      cases right with
      | null =>
        rw [eval_tree_ternary_null]
        rcases h : eval_tree left st with ⟨_ | v, st1⟩ <;> rw [h] at e1 <;>
          exact ⟨ws1, hsubl, e1⟩
      | leaf exp_type token2 =>
        rw [eval_tree_ternary_leaf]
        rcases h : eval_tree left st with ⟨_ | v, st1⟩ <;> rw [h] at e1 <;>
          exact ⟨ws1, hsubl, e1⟩
      | interior op2 token2 b c =>
        obtain ⟨hb, hc⟩ := ihalt op2 token2 b c rfl
        rw [eval_tree_ternary]
        rcases h : eval_tree left st with ⟨_ | v, st1⟩ <;> rw [h] at e1
        · exact ⟨ws1, hsubl, e1⟩
        · simp only at e1 ⊢
          by_cases hv : v ≠ 0
          · obtain ⟨ws2, hw2, e2⟩ := hb st1
            refine ⟨ws1 ++ ws2, ?_, ?_⟩
            · intro w hw
              rcases List.mem_append.1 hw with hw | hw
              · exact hsubl w hw
              · simp only [assigned_names]
                simp [hw2 w hw]
            · rw [if_pos hv, e2, e1, store_all_append]
          · obtain ⟨ws2, hw2, e2⟩ := hc st1
            refine ⟨ws1 ++ ws2, ?_, ?_⟩
            · intro w hw
              rcases List.mem_append.1 hw with hw | hw
              · exact hsubl w hw
              · simp only [assigned_names]
                simp [hw2 w hw]
            · rw [if_neg hv, e2, e1, store_all_append]
    · by_cases ha : op = ASSIGN_OP
      · subst ha
        rw [eval_tree_assign]
        cases hl : lvalue_name left with
        | error e => exact ⟨[], by simp, rfl⟩
        | ok name =>
          obtain ⟨ws2, hw2, e2⟩ := ihr st
          have hsubr : ∀ w ∈ ws2, w.1 ∈ assigned_names
              (tree_node_t.interior ASSIGN_OP token left right) := fun w hw => by
            simp only [assigned_names]
            simp [hw2 w hw]
          rcases h : eval_tree right st with ⟨_ | v, st1⟩ <;> rw [h] at e2
          · exact ⟨ws2, hsubr, e2⟩
          · refine ⟨ws2 ++ [(name, v)], ?_, ?_⟩
            · intro w hw
              rcases List.mem_append.1 hw with hw | hw
              · exact hsubr w hw
              · simp only [List.mem_singleton] at hw
                subst hw
                simp [assigned_names, lvalue_names, hl]
            · simp only at e2 ⊢
              rw [store_all_append, ← e2]
              rfl
      · obtain ⟨ws1, hw1, e1⟩ := ihl st
        have hsubl : ∀ w ∈ ws1, w.1 ∈ assigned_names
            (tree_node_t.interior op token left right) := fun w hw => by
          simp only [assigned_names]
          simp [hw1 w hw]
        rw [eval_tree_binary hq ha]
        rcases h : eval_tree left st with ⟨_ | lv, st1⟩ <;> rw [h] at e1
        · exact ⟨ws1, hsubl, e1⟩
        · obtain ⟨ws2, hw2, e2⟩ := ihr st1
          simp only at e1 ⊢
          have hsub : ∀ w ∈ ws1 ++ ws2, w.1 ∈ assigned_names
              (tree_node_t.interior op token left right) := fun w hw => by
            rcases List.mem_append.1 hw with hw | hw
            · exact hsubl w hw
            · simp only [assigned_names]
              simp [hw2 w hw]
          have hst : st = st → store_all st (ws1 ++ ws2) = store_all st1 ws2 := fun _ => by
            rw [store_all_append, ← e1]
          rcases h2 : eval_tree right st1 with ⟨_ | rv, st2⟩ <;> rw [h2] at e2
          · exact ⟨ws1 ++ ws2, hsub, by rw [hst rfl]; exact e2⟩
          · refine ⟨ws1 ++ ws2, hsub, ?_⟩
            rw [hst rfl]
            simp only at e2 ⊢
            cases apply_op op lv rv <;> exact e2

theorem contains_assign_names {t : tree_node_t} (h : contains_assign t = false) :
    assigned_names t = [] := by
  induction t with
  | null => rfl
  | leaf _ _ => rfl
  | interior op token left right ihl ihr =>
    simp only [contains_assign, Bool.or_eq_false_iff, decide_eq_false_iff_not] at h
    obtain ⟨⟨h1, h2⟩, h3⟩ := h
    simp [assigned_names, h1, ihl h2, ihr h3]

/-! ## Errors of the evaluation of well-formed trees -/

theorem binop_token_cases {op : op_type_t} {token : CStr} (h : binop_token op = some token) :
    op = ASSIGN_OP ∨ is_arith op = true := by
  cases op <;> simp [binop_token] at h <;> simp [is_arith]

theorem is_arith_ne {op : op_type_t} (h : is_arith op = true) :
    op ≠ Q_OP ∧ op ≠ ASSIGN_OP := by
  cases op <;> simp [is_arith] at h <;> exact ⟨by decide, by decide⟩

/-- Evaluation of a well-formed tree fails only with a message of the evaluation taxonomy, or
is stopped by SIGFPE in a division. -/
theorem eval_well_formed_errors {t : tree_node_t} (h : WellFormed t) :
    ∀ (st : symtab_t) (e : String) (st1 : symtab_t),
      eval_tree t st = (.error e, st1) → e ∈ EVAL_ERRORS ∨ e = SIGFPE_TRAP := by
  induction h with
  | integer token hd =>
    intro st e st1 h
    rw [eval_tree_integer] at h
    cases h
  | symbol token hs =>
    intro st e st1 h
    rw [eval_tree_symbol] at h
    cases hl : lookup_table st token with
    | none =>
      rw [hl] at h
      simp only [Prod.mk.injEq, Except.error.injEq] at h
      rw [← h.1]
      exact Or.inl (by decide)
    | some s => rw [hl] at h; cases h
  | binary op token left right hop _ _ ihl ihr =>
    intro st e st1 h
    rcases binop_token_cases hop with rfl | har
    · rw [eval_tree_assign] at h
      cases hl : lvalue_name left with
      | error e2 =>
        rw [hl] at h
        simp only [Prod.mk.injEq, Except.error.injEq] at h
        rw [← h.1]
        rcases lvalue_name_error hl with rfl | rfl <;> exact Or.inl (by decide)
      | ok name =>
        rw [hl] at h
        simp only at h
        rcases hr : eval_tree right st with ⟨e2 | v, st2⟩
        · rw [hr] at h
          simp only [Prod.mk.injEq, Except.error.injEq] at h
          rw [← h.1]
          exact ihr st e2 st2 hr
        · rw [hr] at h
          cases h
    · obtain ⟨n1, n2⟩ := is_arith_ne har
      rw [eval_tree_binary n1 n2] at h
      rcases hl : eval_tree left st with ⟨e2 | lv, st2⟩
      · rw [hl] at h
        simp only [Prod.mk.injEq, Except.error.injEq] at h
        rw [← h.1]
        exact ihl st e2 st2 hl
      · rw [hl] at h
        simp only at h
        rcases hr : eval_tree right st2 with ⟨e3 | rv, st3⟩
        · rw [hr] at h
          simp only [Prod.mk.injEq, Except.error.injEq] at h
          rw [← h.1]
          exact ihr st2 e3 st3 hr
        · rw [hr] at h
          simp only at h
          cases ha : apply_op op lv rv with
          | error e4 =>
            rw [ha] at h
            simp only [Prod.mk.injEq, Except.error.injEq] at h
            rw [← h.1]
            rcases apply_op_arith_error har ha with rfl | rfl
            · exact Or.inl (by decide)
            · exact Or.inr rfl
          | ok v => rw [ha] at h; cases h
  | ternary a b c _ _ _ iha ihb ihc =>
    intro st e st1 h
    rw [eval_tree_ternary] at h
    rcases hl : eval_tree a st with ⟨e2 | v, st2⟩
    · rw [hl] at h
      simp only [Prod.mk.injEq, Except.error.injEq] at h
      rw [← h.1]
      exact iha st e2 st2 hl
    · rw [hl] at h
      simp only at h
      by_cases hv : v ≠ 0
      · rw [if_pos hv] at h
        exact ihb st2 e st1 h
      · rw [if_neg hv] at h
        exact ihc st2 e st1 h

/-- On a tree returned by `parse_line` the evaluation yields a value, or fails with a message
of the evaluation taxonomy, or is stopped by SIGFPE; the messages "Unknown node type", "Unknown
leaf type" and "Unknown operation" never come out. -/
theorem eval_parsed_outcomes {line : CStr} {t : tree_node_t} (h : parse_line line = .ok t)
    (st : symtab_t) :
    (∃ v st1, eval_tree t st = (.ok v, st1)) ∨
    (∃ e st1, eval_tree t st = (.error e, st1) ∧ (e ∈ EVAL_ERRORS ∨ e = SIGFPE_TRAP) ∧
      e ≠ "Unknown node type" ∧ e ≠ "Unknown leaf type" ∧ e ≠ "Unknown operation") := by
  have hwf := (parse_line_sound h).1
  rcases he : eval_tree t st with ⟨e | v, st1⟩
  · right
    have hmem := eval_well_formed_errors hwf st e st1 he
    refine ⟨e, st1, rfl, hmem, ?_⟩
    rcases hmem with hmem | rfl
    · simp only [EVAL_ERRORS, List.mem_cons, List.mem_singleton, List.not_mem_nil,
        or_false] at hmem
      rcases hmem with rfl | rfl | rfl | rfl | rfl <;> decide
    · decide
  · exact Or.inl ⟨v, st1, rfl⟩

/-- The stop by SIGFPE happens in a division only: an arithmetic switch gives the marker
exactly for `DIV_OP` and `MOD_OP` at `LONG_MIN` and `-1`. -/
theorem apply_op_trap_iff (op : op_type_t) (lv rv : Int) :
    apply_op op lv rv = .error SIGFPE_TRAP ↔
      (op = DIV_OP ∨ op = MOD_OP) ∧ lv = LONG_MIN ∧ rv = -1 := by
  have hne1 : ("Division by zero" : String) ≠ SIGFPE_TRAP := by decide
  have hne2 : ("Unknown operation" : String) ≠ SIGFPE_TRAP := by decide
  constructor
  · intro h
    cases op <;> simp only [apply_op] at h
    case DIV_OP =>
      by_cases h0 : rv = 0
      · rw [if_pos h0] at h
        exact absurd (Except.error.inj h) hne1
      · rw [if_neg h0] at h
        by_cases h1 : lv = LONG_MIN ∧ rv = -1
        · exact ⟨Or.inl rfl, h1⟩
        · rw [if_neg h1] at h
          cases h
    case MOD_OP =>
      by_cases h0 : rv = 0
      · rw [if_pos h0] at h
        exact absurd (Except.error.inj h) hne1
      · rw [if_neg h0] at h
        by_cases h1 : lv = LONG_MIN ∧ rv = -1
        · exact ⟨Or.inr rfl, h1⟩
        · rw [if_neg h1] at h
          cases h
    all_goals first | cases h | exact absurd (Except.error.inj h) hne2
  · rintro ⟨hop, rfl, rfl⟩
    rcases hop with rfl | rfl <;> rfl

/-! ## The claims, continued -/

/-- C11. Illegal token: for every token `x` that is neither operator, integer literal nor
symbol, every token sequence `p` and every proper suffix `rear` (possibly empty) of the
serialisation of a well-formed tree, a line whose tokens are `p`, `x`, `rear` fails with the
illegal-token message and returns no tree; so does the line joining these tokens by single
spaces. -/
theorem illegal_token_reported (t : tree_node_t) (h : WellFormed t) (front rear : List CStr)
    (hfront : front ≠ []) (hsplit : front ++ rear = serialise t) (x : CStr)
    (h1 : is_op x = false) (h2 : is_integer_token x = false) (h3 : is_symbol_token x = false)
    (p : List CStr) :
    (∀ line : CStr, strtok_all [] line = p ++ x :: rear →
      parse_line line = .error "Illegal token") ∧
    ((x ≠ [] ∧ ∀ c ∈ x, is_delim c = false) →
      (∀ tok ∈ p, tok ≠ [] ∧ ∀ c ∈ tok, is_delim c = false) →
      parse_line (join_tokens (p ++ x :: rear)) = .error "Illegal token") := by
  have key : ∀ line : CStr, strtok_all [] line = p ++ x :: rear →
      parse_line line = .error "Illegal token" :=
    fun line hl => parse_line_illegal h hfront hsplit h1 h2 h3 hl
  refine ⟨key, fun hx hp => key _ (strtok_all_join _ ?_)⟩
  intro tok htok
  rcases List.mem_append.1 htok with h4 | h4
  · exact hp tok h4
  · rcases List.mem_cons.1 h4 with rfl | h5
    · exact hx
    · exact serialise_tokens_clean h tok (by rw [← hsplit]; exact List.mem_append_right _ h5)

/-- C11, at the line `3 @ +`: `+` is a proper suffix of `3 4 +`, and `@` is illegal. -/
theorem illegal_token_reported_witness :
    parse_line "3 @ +".toList = .error "Illegal token" :=
  (illegal_token_reported
    (tree_node_t.interior ADD_OP ['+'] (tree_node_t.leaf INTEGER ['3'])
      (tree_node_t.leaf INTEGER ['4']))
    (WellFormed.binary ADD_OP _ _ _ rfl (WellFormed.integer _ rfl) (WellFormed.integer _ rfl))
    [['3'], ['4']] [['+']] (by decide) rfl ['@'] rfl rfl rfl [['3']]).1 "3 @ +".toList rfl

/-- C12, on the code: the message reported for the line `3 @ +` is the fixed text
"Illegal token", in which the offending token `@` does not occur. -/
theorem illegal_token_message_omits_token :
    parse_line "3 @ +".toList = .error "Illegal token" ∧ '@' ∉ "Illegal token".toList :=
  ⟨rfl, by decide⟩

/-- C13. Token classification is total and unambiguous: `is_op` accepts exactly the
one-character strings among `+ - * / % = ?`, `is_integer_token` exactly the strings of `[0-9]+`,
`is_symbol_token` exactly the strings of `[A-Za-z][A-Za-z0-9]*`; no string is accepted by two of
them, so every string is in exactly one of the four classes operator, integer, symbol, illegal;
the empty string is accepted by none. -/
theorem token_classification (t : CStr) :
    (is_op t = true ↔ ∃ c, t = [c] ∧ c ∈ ['+', '-', '*', '/', '%', '=', '?']) ∧
    (is_integer_token t = true ↔ t ≠ [] ∧ ∀ c ∈ t, in_range '0' '9' c) ∧
    (is_symbol_token t = true ↔
      ∃ c cs, t = c :: cs ∧ (in_range 'A' 'Z' c ∨ in_range 'a' 'z' c) ∧
        ∀ d ∈ cs, in_range 'A' 'Z' d ∨ in_range 'a' 'z' d ∨ in_range '0' '9' d) ∧
    ¬(is_op t = true ∧ is_integer_token t = true) ∧
    ¬(is_op t = true ∧ is_symbol_token t = true) ∧
    ¬(is_integer_token t = true ∧ is_symbol_token t = true) ∧
    (is_op t).toNat + (is_integer_token t).toNat + (is_symbol_token t).toNat ≤ 1 ∧
    (is_op [] = false ∧ is_integer_token [] = false ∧ is_symbol_token [] = false) := by
  have d1 : ¬(is_op t = true ∧ is_integer_token t = true) := by
    rintro ⟨a, b⟩
    rw [integer_not_op b] at a
    cases a
  have d2 : ¬(is_op t = true ∧ is_symbol_token t = true) := by
    rintro ⟨a, b⟩
    rw [symbol_not_op (by rw [← is_symbol_token_eq]; exact b)] at a
    cases a
  have d3 : ¬(is_integer_token t = true ∧ is_symbol_token t = true) := by
    rintro ⟨a, b⟩
    rw [symbol_not_integer (by rw [← is_symbol_token_eq]; exact b)] at a
    cases a
  refine ⟨is_op_iff t, is_integer_token_iff t, is_symbol_token_iff t, d1, d2, d3, ?_,
    rfl, rfl, rfl⟩
  cases ho : is_op t <;> cases hi : is_integer_token t <;> cases hs : is_symbol_token t <;>
    simp_all

/-- C14. Infix rendering: for every tree `print_infix` writes `render(t)`, a leaf being its
token and an interior node `(` + render(left) + token + render(right) + `)`; and for the tree
parsed from any valid line the text has no white space and exactly one pair of parentheses for
each interior node. -/
theorem infix_rendering :
    (∀ t : tree_node_t, print_infix t = render t) ∧
    (∀ (line : CStr) (t : tree_node_t), parse_line line = .ok t →
      (∀ c ∈ print_infix t, isspace c = false) ∧
        ( print_infix t).count '(' = interior_count t ∧
        ( print_infix t).count ')' = interior_count t) :=
  ⟨print_infix_eq_render, fun _ _ h => print_infix_well_formed (parse_line_sound h).1⟩

/-- C14, at the line `3 4 +`, printed as `(3+4)`, and at `1 2 3 ?`, printed as `(1?(2:3))`. -/
theorem infix_rendering_witness :
    (parse_line "3 4 +".toList).map print_infix = .ok "(3+4)".toList ∧
      (parse_line "1 2 3 ?".toList).map print_infix = .ok "(1?(2:3))".toList ∧
      (∀ c ∈ "(3+4)".toList, isspace c = false) ∧
      "(3+4)".toList.count '(' = 1 ∧ "(3+4)".toList.count ')' = 1 :=
  ⟨rfl, rfl,
    infix_rendering.2 "3 4 +".toList
      (tree_node_t.interior ADD_OP ['+'] (tree_node_t.leaf INTEGER ['3'])
        (tree_node_t.leaf INTEGER ['4'])) rfl⟩

/-- C15, as stated, fails: the table stores `(int)v`. The Assign node of `x` and the literal
2147483648 evaluates to 2147483648 and binds `x` to -2147483648, which is what the leaf `x`
yields immediately afterwards. -/
theorem assign_stores_int_conversion :
    eval_tree (tree_node_t.interior ASSIGN_OP ['='] (tree_node_t.leaf SYMBOL ['x'])
        (tree_node_t.leaf INTEGER "2147483648".toList)) []
      = (.ok 2147483648, [{ var_name := ['x'], val := -2147483648 }]) ∧
    eval_tree (tree_node_t.leaf SYMBOL ['x']) [{ var_name := ['x'], val := -2147483648 }]
      = (.ok (-2147483648), [{ var_name := ['x'], val := -2147483648 }]) :=
  ⟨rfl, rfl⟩

/-- C15, amended: for every Assign node whose left child is the Symbol leaf `name` and whose
right child evaluates, in the starting table, to a value `v` within the range of `int` leaving
table `st1`, the node evaluates to `v`; in the resulting table `name` is bound to `v`, so the
leaf `name` evaluated there yields `v`; the entry is overwritten if `name` was defined in `st1`
and created at the head otherwise. -/
theorem assign_value_is_stored (token name : CStr) (right : tree_node_t) (st st1 : symtab_t)
    (v : Int) (hr : eval_tree right st = (.ok v, st1))
    (hv1 : INT_MIN ≤ v) (hv2 : v ≤ INT_MAX) :
    ∃ st2, eval_tree (tree_node_t.interior ASSIGN_OP token
        (tree_node_t.leaf SYMBOL name) right) st = (.ok v, st2) ∧
      (∃ s, lookup_table st2 name = some s ∧ s.val = v) ∧
      eval_tree (tree_node_t.leaf SYMBOL name) st2 = (.ok v, st2) ∧
      (lookup_table st1 name ≠ none → st2 = set_val st1 name v) ∧
      (lookup_table st1 name = none → st2 = create_symbol st1 name v) := by
  have hto : to_int v = v := to_int_of_range hv1 hv2
  obtain ⟨s, hs, hval⟩ := lookup_store_symbol st1 name v
  rw [hto] at hval
  refine ⟨store_symbol st1 name v, ?_, ⟨s, hs, hval⟩, ?_, ?_, ?_⟩
  · rw [eval_tree_assign, hr]
    rfl
  · rw [eval_tree_symbol, hs]
    simp only [hval]
  · intro hdef
    unfold store_symbol
    cases hl : lookup_table st1 name with
    | none => exact absurd hl hdef
    | some s2 => simp only [hto]
  · intro hnone
    unfold store_symbol
    rw [hnone]
    simp only [hto]

/-- C15, amended, at the node `x = 2 + 3` on the table where `x` is 1: the value is 5 and `x`
is overwritten with 5. -/
theorem assign_value_is_stored_witness :
    ∃ st2, eval_tree (tree_node_t.interior ASSIGN_OP ['='] (tree_node_t.leaf SYMBOL ['x'])
        (tree_node_t.interior ADD_OP ['+'] (tree_node_t.leaf INTEGER ['2'])
          (tree_node_t.leaf INTEGER ['3']))) [{ var_name := ['x'], val := 1 }] = (.ok 5, st2) ∧
      (∃ s, lookup_table st2 ['x'] = some s ∧ s.val = 5) ∧
      eval_tree (tree_node_t.leaf SYMBOL ['x']) st2 = (.ok 5, st2) ∧
      (lookup_table [{ var_name := ['x'], val := 1 }] ['x'] ≠ none →
        st2 = set_val [{ var_name := ['x'], val := 1 }] ['x'] 5) ∧
      (lookup_table [{ var_name := ['x'], val := 1 }] ['x'] = none →
        st2 = create_symbol [{ var_name := ['x'], val := 1 }] ['x'] 5) :=
  assign_value_is_stored ['='] ['x']
    (tree_node_t.interior ADD_OP ['+'] (tree_node_t.leaf INTEGER ['2'])
      (tree_node_t.leaf INTEGER ['3']))
    [{ var_name := ['x'], val := 1 }] [{ var_name := ['x'], val := 1 }] 5 rfl
    (by decide) (by decide)

/-- C16. Malformed l-value: an Assign node whose left child is an Integer leaf fails with
"Invalid l-value", one whose left child is an interior node fails with "Missing l-value"; in
both cases the outcome does not depend on the right child and the table is as it was. The
l-value check is passed exactly when the left child is a Symbol leaf, and then the right child
is evaluated. -/
theorem malformed_lvalue (token : CStr) (left right : tree_node_t) (st : symtab_t) :
    (∀ n, left = tree_node_t.leaf INTEGER n →
      eval_tree (tree_node_t.interior ASSIGN_OP token left right) st
        = (.error "Invalid l-value", st)) ∧
    (∀ op tok l r, left = tree_node_t.interior op tok l r →
      eval_tree (tree_node_t.interior ASSIGN_OP token left right) st
        = (.error "Missing l-value", st)) ∧
    ((∃ name, lvalue_name left = .ok name) ↔ ∃ name, left = tree_node_t.leaf SYMBOL name) ∧
    (∀ e, lvalue_name left = .error e →
      ∀ right2, eval_tree (tree_node_t.interior ASSIGN_OP token left right2) st
        = (.error e, st)) ∧
    (∀ name, lvalue_name left = .ok name →
      eval_tree (tree_node_t.interior ASSIGN_OP token left right) st
        = match eval_tree right st with
          | (.error e, st1) => (.error e, st1)
          | (.ok rval, st1) => (.ok rval, store_symbol st1 name rval)) := by
  refine ⟨?_, ?_, ?_, ?_, ?_⟩
  · rintro n rfl
    rw [eval_tree_assign]
    rfl
  · rintro op tok l r rfl
    rw [eval_tree_assign]
    rfl
  · constructor
    · rintro ⟨name, h⟩
      exact ⟨name, lvalue_name_ok h⟩
    · rintro ⟨name, rfl⟩
      exact ⟨name, rfl⟩
  · intro e h right2
    rw [eval_tree_assign, h]
  · intro name h
    rw [eval_tree_assign, h]

/-- C16, at the nodes `5 = y` and `(3 + 4) = y` on a table where `y` is undefined: the l-value
error is reported, not the undefined symbol of the right child, and the table is unchanged. -/
theorem malformed_lvalue_witness :
    eval_tree (tree_node_t.interior ASSIGN_OP ['='] (tree_node_t.leaf INTEGER ['5'])
        (tree_node_t.leaf SYMBOL ['y'])) [] = (.error "Invalid l-value", []) ∧
    eval_tree (tree_node_t.interior ASSIGN_OP ['=']
        (tree_node_t.interior ADD_OP ['+'] (tree_node_t.leaf INTEGER ['3'])
          (tree_node_t.leaf INTEGER ['4']))
        (tree_node_t.leaf SYMBOL ['y'])) [] = (.error "Missing l-value", []) :=
  ⟨(malformed_lvalue ['='] (tree_node_t.leaf INTEGER ['5']) (tree_node_t.leaf SYMBOL ['y'])
      []).1 ['5'] rfl,
    (malformed_lvalue ['=']
      (tree_node_t.interior ADD_OP ['+'] (tree_node_t.leaf INTEGER ['3'])
        (tree_node_t.leaf INTEGER ['4']))
      (tree_node_t.leaf SYMBOL ['y']) []).2.1 ADD_OP ['+'] (tree_node_t.leaf INTEGER ['3'])
        (tree_node_t.leaf INTEGER ['4']) rfl⟩

/-- C17. Evaluation never deletes and only touches assigned names: after `eval_tree`, whether
it succeeds or fails, every name defined before is still defined; a name that is not the left
operand of an Assign node of the tree is looked up exactly as before, defined or not and with
the same value; and a tree with no Assign node leaves the table unchanged. -/
theorem eval_frame (t : tree_node_t) (st : symtab_t) :
    (∀ name, lookup_table st name ≠ none → lookup_table (eval_tree t st).2 name ≠ none) ∧
    (∀ name, name ∉ assigned_names t →
      lookup_table (eval_tree t st).2 name = lookup_table st name) ∧
    (contains_assign t = false → (eval_tree t st).2 = st) := by
  obtain ⟨ws, hw, e⟩ := eval_tree_stores t st
  refine ⟨?_, ?_, ?_⟩
  · intro name h
    rw [e]
    exact lookup_store_all_defined name ws st h
  · intro name h
    rw [e]
    exact lookup_store_all_other name ws st (fun w hmem heq => h (heq ▸ hw w hmem))
  · intro h
    have hnil := contains_assign_names h
    cases ws with
    | nil => exact e
    | cons w ws2 =>
      have := hw w (by simp)
      rw [hnil] at this
      cases this

/-- C17, at the tree of `x 7 = y +` on the table with `x` 1 and `z` 2, where the evaluation
fails on the undefined `y` after the store to `x`: `z` is looked up as before, `x` is still
defined, and the tree of `z 3 +` leaves the table unchanged. -/
theorem eval_frame_witness :
    lookup_table (eval_tree (tree_node_t.interior ADD_OP ['+']
        (tree_node_t.interior ASSIGN_OP ['='] (tree_node_t.leaf SYMBOL ['x'])
          (tree_node_t.leaf INTEGER ['7']))
        (tree_node_t.leaf SYMBOL ['y']))
      [{ var_name := ['x'], val := 1 }, { var_name := ['z'], val := 2 }]).2 ['z']
      = lookup_table [{ var_name := ['x'], val := 1 }, { var_name := ['z'], val := 2 }] ['z'] ∧
    lookup_table (eval_tree (tree_node_t.interior ADD_OP ['+']
        (tree_node_t.interior ASSIGN_OP ['='] (tree_node_t.leaf SYMBOL ['x'])
          (tree_node_t.leaf INTEGER ['7']))
        (tree_node_t.leaf SYMBOL ['y']))
      [{ var_name := ['x'], val := 1 }, { var_name := ['z'], val := 2 }]).2 ['x'] ≠ none ∧
    (eval_tree (tree_node_t.interior ADD_OP ['+'] (tree_node_t.leaf SYMBOL ['z'])
        (tree_node_t.leaf INTEGER ['3']))
      [{ var_name := ['x'], val := 1 }, { var_name := ['z'], val := 2 }]).2
      = [{ var_name := ['x'], val := 1 }, { var_name := ['z'], val := 2 }] :=
  ⟨(eval_frame _ _).2.1 ['z'] (by decide), (eval_frame _ _).1 ['x'] (by decide),
    (eval_frame _ _).2.2 rfl⟩

/-- C18, on the code: the line `0 9223372036854775807 - 1 - 0 1 - /` parses, its left operand
evaluates to `LONG_MIN` and its right operand to `-1` without any overflow, and the Div node
then divides them: the evaluation neither yields a value nor fails with a message of the
taxonomy, the process is killed by SIGFPE. The same holds of the line with `%`. -/
theorem eval_parsed_tree_trap :
    parse_line "0 9223372036854775807 - 1 - 0 1 - /".toList
      = .ok (tree_node_t.interior DIV_OP ['/']
          (tree_node_t.interior SUB_OP ['-']
            (tree_node_t.interior SUB_OP ['-'] (tree_node_t.leaf INTEGER ['0'])
              (tree_node_t.leaf INTEGER "9223372036854775807".toList))
            (tree_node_t.leaf INTEGER ['1']))
          (tree_node_t.interior SUB_OP ['-'] (tree_node_t.leaf INTEGER ['0'])
            (tree_node_t.leaf INTEGER ['1']))) ∧
    parse_eval "0 9223372036854775807 - 1 -".toList [] = (.ok LONG_MIN, []) ∧
    parse_eval "0 1 -".toList [] = (.ok (-1), []) ∧
    parse_eval "0 9223372036854775807 - 1 - 0 1 - /".toList [] = (.error SIGFPE_TRAP, []) ∧
    parse_eval "0 9223372036854775807 - 1 - 0 1 - %".toList [] = (.error SIGFPE_TRAP, []) ∧
    SIGFPE_TRAP ∉ EVAL_ERRORS :=
  ⟨rfl, rfl, rfl, rfl, rfl, by decide⟩

/-- C19. Arithmetic nodes evaluate left, then right, and the first error wins: for an Add, Sub,
Mul, Div or Mod node, if the left child fails the node fails with that error and that table,
whatever the right child is; otherwise the right child is evaluated in the table the left child
left, and if it fails the node fails with its error; otherwise the operator is applied to the
two values: the switch of the code, which yields the wrapped sum, difference or product, and
for Div and Mod "Division by zero" at a zero divisor, the stop by SIGFPE at `LONG_MIN` and
`-1`, and the truncated quotient or its remainder elsewhere. -/
theorem arith_left_then_right (op : op_type_t) (hop : is_arith op = true) (token : CStr)
    (l r : tree_node_t) (st : symtab_t) :
    (∀ e st1, eval_tree l st = (.error e, st1) →
      ∀ r2, eval_tree (tree_node_t.interior op token l r2) st = (.error e, st1)) ∧
    (∀ lv st1 e st2, eval_tree l st = (.ok lv, st1) → eval_tree r st1 = (.error e, st2) →
      eval_tree (tree_node_t.interior op token l r) st = (.error e, st2)) ∧
    (∀ lv st1 rv st2, eval_tree l st = (.ok lv, st1) → eval_tree r st1 = (.ok rv, st2) →
      eval_tree (tree_node_t.interior op token l r) st
          = (match apply_op op lv rv with
            | .error e => (.error e, st2)
            | .ok v => (.ok v, st2)) ∧
        (op = ADD_OP → apply_op op lv rv = .ok (wrap_long (lv + rv))) ∧
        (op = SUB_OP → apply_op op lv rv = .ok (wrap_long (lv - rv))) ∧
        (op = MUL_OP → apply_op op lv rv = .ok (wrap_long (lv * rv))) ∧
        (op = DIV_OP ∨ op = MOD_OP → rv = 0 → apply_op op lv rv = .error "Division by zero") ∧
        (op = DIV_OP ∨ op = MOD_OP → lv = LONG_MIN → rv = -1 →
          apply_op op lv rv = .error SIGFPE_TRAP) ∧
        (op = DIV_OP → rv ≠ 0 → ¬(lv = LONG_MIN ∧ rv = -1) →
          apply_op op lv rv = .ok (wrap_long (Int.tdiv lv rv))) ∧
        (op = MOD_OP → rv ≠ 0 → ¬(lv = LONG_MIN ∧ rv = -1) →
          apply_op op lv rv = .ok (wrap_long (Int.tmod lv rv)))) := by
  obtain ⟨n1, n2⟩ := is_arith_ne hop
  refine ⟨?_, ?_, ?_⟩
  · intro e st1 hl r2
    rw [eval_tree_binary n1 n2, hl]
  · intro lv st1 e st2 hl hr
    rw [eval_tree_binary n1 n2, hl]
    simp only
    rw [hr]
  · intro lv st1 rv st2 hl hr
    refine ⟨?_, ?_, ?_, ?_, ?_, ?_, ?_, ?_⟩
    · rw [eval_tree_binary n1 n2, hl]
      simp only
      rw [hr]
    · rintro rfl; rfl
    · rintro rfl; rfl
    · rintro rfl; rfl
    · rintro (rfl | rfl) h0 <;> simp only [apply_op] <;> rw [if_pos h0]
    · rintro hdm rfl rfl
      exact (apply_op_trap_iff op LONG_MIN (-1)).2 ⟨hdm, rfl, rfl⟩
    · rintro rfl h0 h1
      simp only [apply_op]
      rw [if_neg h0, if_neg h1]
    · rintro rfl h0 h1
      simp only [apply_op]
      rw [if_neg h0, if_neg h1]

/-- C19, on the empty table: the tree of `x x 5 = +` fails with "Undefined symbol" on its left
child, before the store; the tree of `x 5 = x +` evaluates to 10; and the Div node over the
trees of `0 9223372036854775807 - 1 -` and `0 1 -` is stopped by SIGFPE. -/
theorem arith_left_then_right_witness :
    eval_tree (tree_node_t.interior ADD_OP ['+'] (tree_node_t.leaf SYMBOL ['x'])
        (tree_node_t.interior ASSIGN_OP ['='] (tree_node_t.leaf SYMBOL ['x'])
          (tree_node_t.leaf INTEGER ['5']))) [] = (.error "Undefined symbol", []) ∧
    eval_tree (tree_node_t.interior ADD_OP ['+']
        (tree_node_t.interior ASSIGN_OP ['='] (tree_node_t.leaf SYMBOL ['x'])
          (tree_node_t.leaf INTEGER ['5']))
        (tree_node_t.leaf SYMBOL ['x'])) []
      = (.ok 10, [{ var_name := ['x'], val := 5 }]) ∧
    eval_tree (tree_node_t.interior DIV_OP ['/']
        (tree_node_t.interior SUB_OP ['-']
          (tree_node_t.interior SUB_OP ['-'] (tree_node_t.leaf INTEGER ['0'])
            (tree_node_t.leaf INTEGER "9223372036854775807".toList))
          (tree_node_t.leaf INTEGER ['1']))
        (tree_node_t.interior SUB_OP ['-'] (tree_node_t.leaf INTEGER ['0'])
          (tree_node_t.leaf INTEGER ['1']))) [] = (.error SIGFPE_TRAP, []) ∧
    parse_eval "x x 5 = +".toList [] = (.error "Undefined symbol", []) ∧
    parse_eval "x 5 = x +".toList [] = (.ok 10, [{ var_name := ['x'], val := 5 }]) :=
  ⟨(arith_left_then_right ADD_OP rfl ['+'] (tree_node_t.leaf SYMBOL ['x'])
      (tree_node_t.leaf INTEGER ['5']) []).1 "Undefined symbol" [] rfl _,
    ((arith_left_then_right ADD_OP rfl ['+']
      (tree_node_t.interior ASSIGN_OP ['='] (tree_node_t.leaf SYMBOL ['x'])
        (tree_node_t.leaf INTEGER ['5']))
      (tree_node_t.leaf SYMBOL ['x']) []).2.2 5 [{ var_name := ['x'], val := 5 }] 5
        [{ var_name := ['x'], val := 5 }] rfl rfl).1,
    ((arith_left_then_right DIV_OP rfl ['/']
      (tree_node_t.interior SUB_OP ['-']
        (tree_node_t.interior SUB_OP ['-'] (tree_node_t.leaf INTEGER ['0'])
          (tree_node_t.leaf INTEGER "9223372036854775807".toList))
        (tree_node_t.leaf INTEGER ['1']))
      (tree_node_t.interior SUB_OP ['-'] (tree_node_t.leaf INTEGER ['0'])
        (tree_node_t.leaf INTEGER ['1'])) []).2.2 LONG_MIN [] (-1) [] (by rfl) (by rfl)).1,
    rfl, rfl⟩

/-- C20, as stated, fails: the token `9223372036854775808` denotes 2^63, and the Integer leaf
evaluates to `LONG_MAX`, 9223372036854775807, the value `strtol` returns on overflow. -/
theorem integer_leaf_clamped :
    decimal_value "9223372036854775808".toList = 9223372036854775808 ∧
      eval_tree (tree_node_t.leaf INTEGER "9223372036854775808".toList) []
        = (.ok 9223372036854775807, []) :=
  ⟨rfl, rfl⟩

/-- C20, amended: for every Integer leaf whose token is a non-empty string of decimal digits,
of any length and with or without leading zeros, `eval_tree` succeeds, leaves the table
unchanged and yields the number the token denotes in base 10 when that is at most `LONG_MAX`,
and `LONG_MAX` otherwise. -/
theorem integer_leaf_value (token : CStr) (st : symtab_t) (h : digits_pattern token = true) :
    eval_tree (tree_node_t.leaf INTEGER token) st
        = (.ok (min LONG_MAX (decimal_value token : Int)), st) ∧
      ((decimal_value token : Int) ≤ LONG_MAX →
        eval_tree (tree_node_t.leaf INTEGER token) st = (.ok (decimal_value token : Int), st)) ∧
      (LONG_MAX < (decimal_value token : Int) →
        eval_tree (tree_node_t.leaf INTEGER token) st = (.ok LONG_MAX, st)) := by
  rw [eval_tree_integer, strtol_digits_pattern h]
  refine ⟨rfl, fun hle => ?_, fun hlt => ?_⟩
  · rw [min_eq_right hle]
  · rw [min_eq_left (le_of_lt hlt)]

/-- C20, amended, at the token `007`: the leaf evaluates to 7. -/
theorem integer_leaf_value_witness :
    eval_tree (tree_node_t.leaf INTEGER "007".toList) [] = (.ok 7, []) :=
  (integer_leaf_value "007".toList [] rfl).2.1 (by decide)

/-! ## Uniqueness of the names of the symbol table -/

theorem lookup_table_none_iff : ∀ (st : symtab_t) (name : CStr),
    lookup_table st name = none ↔ name ∉ st.map symbol_t.var_name
  | [], _ => by simp [lookup_table]
  | cur :: next, name => by
    by_cases hc : cur.var_name = name
    · simp [lookup_table, hc]
    · have ih := lookup_table_none_iff next name
      have hc2 : ¬ name = cur.var_name := fun e => hc e.symm
      simp only [lookup_table, hc, if_false, List.map_cons, List.mem_cons, hc2, false_or]
      exact ih

theorem set_val_names : ∀ (st : symtab_t) (name : CStr) (v : Int),
    (set_val st name v).map symbol_t.var_name = st.map symbol_t.var_name
  | [], _, _ => rfl
  | cur :: next, name, v => by
    by_cases hc : cur.var_name = name
    · simp [set_val, hc]
    · simp only [set_val, hc, if_false, List.map_cons]
      rw [set_val_names next name v]

/-- A store keeps the names unique: the entry found is overwritten in place, and an entry is
created only for a name that `lookup_table` did not find. -/
theorem store_symbol_names_unique (st : symtab_t) (name : CStr) (rval : Int)
    (h : names_unique st) : names_unique (store_symbol st name rval) := by
  unfold store_symbol
  cases hl : lookup_table st name with
  | none =>
    have hnot := (lookup_table_none_iff st name).1 hl
    simp only [names_unique, create_symbol, List.map_cons, List.nodup_cons]
    exact ⟨hnot, h⟩
  | some s =>
    simp only [names_unique, set_val_names]
    exact h

theorem store_all_names_unique : ∀ (ws : List (CStr × Int)) (st : symtab_t),
    names_unique st → names_unique (store_all st ws)
  | [], _, h => h
  | w :: ws, st, h => by
    have := store_all_names_unique ws (store_symbol st w.1 w.2)
      (store_symbol_names_unique st w.1 w.2 h)
    simpa [store_all] using this

/-- C21. Evaluation keeps symbol names unique: if no two entries of the table carry the same
name before `eval_tree`, none do afterwards, for every tree and whether evaluation succeeds or
fails; this rests on the evaluator, since `create_symbol` itself adds its entry without looking
for one of that name, and breaks uniqueness when the name is already defined. -/
theorem eval_keeps_names_unique (t : tree_node_t) (st : symtab_t) :
    (names_unique st → names_unique (eval_tree t st).2) ∧
    (∀ (name : CStr) (v : Int), lookup_table st name ≠ none →
      ¬ names_unique (create_symbol st name v)) := by
  constructor
  · intro h
    obtain ⟨ws, -, e⟩ := eval_tree_stores t st
    rw [e]
    exact store_all_names_unique ws st h
  · intro name v hdef hu
    have hmem : name ∈ st.map symbol_t.var_name := by
      by_contra hnot
      exact hdef ((lookup_table_none_iff st name).2 hnot)
    simp only [names_unique, create_symbol, List.map_cons, List.nodup_cons] at hu
    exact hu.1 hmem

/-- C21, at the tree of `x 7 = y 8 = + q +` on the table where only `x` is defined: the
evaluation overwrites `x`, creates `y`, then fails on the undefined `q`, and the names of the
table it leaves, `y` and `x`, are unique; `create_symbol` of `x` on the starting table is not. -/
theorem eval_keeps_names_unique_witness :
    names_unique [{ var_name := ['x'], val := 1 }] ∧
    eval_tree (tree_node_t.interior ADD_OP ['+']
        (tree_node_t.interior ADD_OP ['+']
          (tree_node_t.interior ASSIGN_OP ['='] (tree_node_t.leaf SYMBOL ['x'])
            (tree_node_t.leaf INTEGER ['7']))
          (tree_node_t.interior ASSIGN_OP ['='] (tree_node_t.leaf SYMBOL ['y'])
            (tree_node_t.leaf INTEGER ['8'])))
        (tree_node_t.leaf SYMBOL ['q'])) [{ var_name := ['x'], val := 1 }]
      = (.error "Undefined symbol",
          [{ var_name := ['y'], val := 8 }, { var_name := ['x'], val := 7 }]) ∧
    names_unique (eval_tree (tree_node_t.interior ADD_OP ['+']
        (tree_node_t.interior ADD_OP ['+']
          (tree_node_t.interior ASSIGN_OP ['='] (tree_node_t.leaf SYMBOL ['x'])
            (tree_node_t.leaf INTEGER ['7']))
          (tree_node_t.interior ASSIGN_OP ['='] (tree_node_t.leaf SYMBOL ['y'])
            (tree_node_t.leaf INTEGER ['8'])))
        (tree_node_t.leaf SYMBOL ['q'])) [{ var_name := ['x'], val := 1 }]).2 ∧
    ¬ names_unique (create_symbol [{ var_name := ['x'], val := 1 }] ['x'] 2) :=
  have hu : names_unique [{ var_name := ['x'], val := 1 }] := by decide
  ⟨hu, rfl, (eval_keeps_names_unique _ _).1 hu,
    (eval_keeps_names_unique tree_node_t.null [{ var_name := ['x'], val := 1 }]).2 ['x'] 2
      (by decide)⟩

end Interp
